import Mathlib

/-!
Verification development for the daemonizer concurrency core
(`task_group.ts`, `event_loop.ts`, `bounded_queue.ts`, `abort.ts`).

The TypeScript code is shallowly embedded as pure state machines:
every `async` operation is split at its `await` points, suspended
continuations are recorded explicitly in the state, and the cooperative
scheduler is modelled by letting a script choose which step runs next.
Instrumentation that is not in the source (event traces, registration
clocks) is clearly marked; it records what happens but never influences
which branch the embedded code takes.
-/

namespace Daemonizer

/-! ## TaskGroup (src/task_group.ts)

The class holds a numeric `count` (a JS number used as an integer,
so it may go negative) and an array of waiter continuations.  Waiter
continuations are modelled by numeric identifiers. -/

structure TaskGroup where
  count : Int
  waiters : List Nat
deriving DecidableEq, Repr

/-- A freshly constructed `TaskGroup` (`count = 0`, no waiters). -/
def TaskGroup.init : TaskGroup := ⟨0, []⟩

/-- Source `add(n)`: `this.count += n`.  No waiter is touched. -/
def TaskGroup.add (tg : TaskGroup) (n : Int) : TaskGroup :=
  { tg with count := tg.count + n }

/-- Source `done()`: `this.count -= 1`; if the new count is exactly `0` every
waiter is resolved and the waiter list is cleared.  Returns the new
state together with the list of released waiters. -/
def TaskGroup.done (tg : TaskGroup) : TaskGroup × List Nat :=
  let c := tg.count - 1
  if c = 0 then (⟨c, []⟩, tg.waiters) else (⟨c, tg.waiters⟩, [])

/-- Source `wait()`: resolves immediately when `count === 0`, otherwise pushes a
new waiter continuation.  Returns the new state and whether the call
resolved without suspending. -/
def TaskGroup.wait (tg : TaskGroup) (id : Nat) : TaskGroup × Bool :=
  if tg.count = 0 then (tg, true) else (⟨tg.count, tg.waiters ++ [id]⟩, false)

/-- Operations a client may perform on a `TaskGroup`. -/
inductive TGOp where
  | add (n : Int)
  | done
  | wait (id : Nat)
deriving DecidableEq, Repr

/-- Observable events of a `TaskGroup` run (instrumentation). -/
inductive TGEvent where
  | immediate (id : Nat)
  | registered (id : Nat)
  | released (ids : List Nat)
deriving DecidableEq, Repr

/-- One `TaskGroup` operation, with its observable events. -/
def tgStep (tg : TaskGroup) : TGOp → TaskGroup × List TGEvent
  | .add n => (tg.add n, [])
  | .done =>
      let r := tg.done
      (r.1, if r.1.count = 0 then [.released r.2] else [])
  | .wait id =>
      let r := tg.wait id
      (r.1, [if r.2 then .immediate id else .registered id])

/-- Run a sequence of `TaskGroup` operations, collecting events. -/
def tgRun (tg : TaskGroup) : List TGOp → TaskGroup × List TGEvent
  | [] => (tg, [])
  | op :: rest =>
      let r := tgStep tg op
      let r2 := tgRun r.1 rest
      (r2.1, r.2 ++ r2.2)

/-- Returns `true` on `add` operations. -/
def TGOp.isAdd : TGOp → Bool
  | .add _ => true
  | _ => false

/-- The sequence contains only `done` and `wait` operations. -/
def onlyDoneWait (σ : List TGOp) : Prop := ∀ op ∈ σ, op.isAdd = false

/-- Number of `done` operations in a sequence. -/
def doneCount : List TGOp → Nat
  | [] => 0
  | .done :: rest => doneCount rest + 1
  | _ :: rest => doneCount rest

/-! ## Error values and abort composition (src/abort.ts)

JavaScript failures relevant to the loop are: the `timeoutError`
singleton (`new DOMException("Timeout", "AbortError")`, compared by
identity with `===`), other `DOMException` instances (in particular the
default reason of `AbortController.abort()`), and arbitrary non-DOM
errors.  Identity of the singleton is captured by giving it its own
constructor: a structurally equal but distinct `DOMException` is a
`domExn` value and is *not* equal to `timeoutSentinel`. -/

inductive JsError where
  | timeoutSentinel
  | domExn (name : String) (message : String)
  | other (message : String)
deriving DecidableEq, Repr

/-- Models `err instanceof DOMException`. -/
def JsError.isDOMException : JsError → Bool
  | .other _ => false
  | _ => true

/-- The settled outcome of a JS promise. -/
inductive Settled (α : Type) where
  | val (a : α)
  | err (e : JsError)
deriving DecidableEq, Repr

/-- Source `withAbort(promise, signal)` races `promise` against the signal.
`abortReason = some r` models the runs in which the signal settles the
race (it was already aborted, or fired while the promise was pending):
the result is a rejection with `signal.reason = r`.  `abortReason =
none` models the runs in which the promise settles first (or no signal
fired), so its own outcome is returned. -/
def withAbort {α : Type} (p : Settled α) (abortReason : Option JsError) : Settled α :=
  match abortReason with
  | some r => .err r
  | none => p

/-! ## Event loop (src/event_loop.ts)

`launchEventLoop` performs `taskGroup.add(1)`, then loops: it awaits
`withAbort(iterator.next(), signal)`, breaks on `done`, dispatches the
event to the handler under abort (and under `withTimeout` when
`strictInterval` is set, whose deadline aborts with `timeoutSentinel`),
classifies failures by `=== timeoutError` and `instanceof DOMException`,
yields, and repeats; a `finally` calls `taskGroup.done()`.

Each loop iteration is driven by a `LoopInput` describing how the two
awaited promises of that iteration settle.  The `MacroTaskYielder` step
only suspends and never fails, so it needs no input. -/

/-- Result of `iterator.next()`: an element or end-of-stream. -/
inductive IterResult (T : Type) where
  | item (v : T)
  | eos
deriving DecidableEq, Repr

/-- Environment of one loop iteration: how `iterator.next()` settles,
whether the loop signal settles the fetch race (and with which reason),
how the handler settles, and whether the dispatch wrapper rejects first
(for `withTimeout` under `strictInterval`, a fired deadline is
`dispatchAbort = some .timeoutSentinel`). -/
structure LoopInput (T : Type) where
  iterNext : Settled (IterResult T)
  fetchAbort : Option JsError
  handler : Settled Unit
  dispatchAbort : Option JsError
deriving DecidableEq, Repr

/-- How a run of the loop body ends. `endOfStream`, `abortedOnFetch` and
`abortedOnDispatch` are the `break` paths (the function returns
normally); `fatal e` is a rethrown error propagating out. -/
inductive ExitCause where
  | endOfStream
  | abortedOnFetch (e : JsError)
  | abortedOnDispatch (e : JsError)
  | fatal (e : JsError)
deriving DecidableEq, Repr

/-- The `while (true)` body of `launchEventLoop`: classification of the
fetch result (`DOMException` ⇒ `break`, otherwise rethrow; `done` ⇒
`break`), then of the dispatch result (`=== timeoutError` ⇒ swallow and
continue, `instanceof DOMException` ⇒ `break loop`, otherwise rethrow).
Returns `none` when the input trace is exhausted with the loop still
running, otherwise the exit cause and the successfully handled events. -/
def loopBody {T : Type} : List (LoopInput T) → Option (ExitCause × List T)
  | [] => none
  | inp :: rest =>
    match withAbort inp.iterNext inp.fetchAbort with
    | .err e => if e.isDOMException then some (.abortedOnFetch e, []) else some (.fatal e, [])
    | .val .eos => some (.endOfStream, [])
    | .val (.item v) =>
      match withAbort inp.handler inp.dispatchAbort with
      | .val _ => (loopBody rest).map (fun r => (r.1, v :: r.2))
      | .err e =>
        if e = .timeoutSentinel then loopBody rest
        else if e.isDOMException then some (.abortedOnDispatch e, [])
        else some (.fatal e, [])

/-- A completed run of `launchEventLoop`. -/
structure LoopRun (T : Type) where
  cause : ExitCause
  handled : List T
  tg : TaskGroup
  released : List Nat
deriving DecidableEq, Repr

/-- Source `launchEventLoop`: `taskGroup.add(1)`, then the loop body inside
`try`, with `taskGroup.done()` in `finally` — so `done` runs exactly
once on every completion of the body, whether it broke out cleanly or
rethrew a fatal error.  `none` means the loop has not exited within the
given inputs, in which case the `finally` block has not run yet. -/
def launchEventLoop {T : Type} (inputs : List (LoopInput T)) (tg : TaskGroup) :
    Option (LoopRun T) :=
  let tg1 := tg.add 1
  match loopBody inputs with
  | none => none
  | some r =>
      let d := tg1.done
      some ⟨r.1, r.2, d.1, d.2⟩

/-! ## BoundedQueue (src/bounded_queue.ts)

The class owns a `buffer` array, FIFO arrays of waiting consumer and
producer continuations, and a monotone `closed` flag.  `push` is an
async retry loop: each failed attempt suspends by registering a
producer continuation; a resolution with the `Opening` sentinel only
*wakes* the producer, whose retry then runs at a later scheduler turn.
Woken-but-not-yet-resumed producers are therefore part of the state
(`woken`), and a script step `resumePush` runs one of them — exactly
the cooperative interleaving of the JS microtask queue.

Instrumentation (never inspected by the embedded code): a `clock`
assigning each registration a sequence number, and per-step event
lists. -/

/-- A suspended producer: its operation id, the value it is trying to
push, and the sequence number of its (most recent) registration. -/
structure PReq (T : Type) where
  op : Nat
  val : T
  seq : Nat
deriving DecidableEq, Repr

structure BoundedQueue (T : Type) where
  capacity : Nat
  buffer : List T
  /-- Waiting consumer continuations as (operation id, registration seq). -/
  waitingConsumers : List (Nat × Nat)
  waitingProducers : List (PReq T)
  /-- Producers resolved with `Opening` whose retry has not run yet. -/
  woken : List (PReq T)
  closed : Bool
  /-- Instrumentation: next registration sequence number. -/
  clock : Nat
deriving DecidableEq, Repr

/-- A freshly constructed queue of the given capacity (the constructor
additionally throws `errZeroCapacity` when `capacity ≤ 0`). -/
def initQ (T : Type) (c : Nat) : BoundedQueue T := ⟨c, [], [], [], [], false, 0⟩

/-- Observable events of queue steps (instrumentation). -/
inductive QEvent (T : Type) where
  | tryPushed (ok : Bool)
  | pushImmediate (op : Nat) (ok : Bool)
  | regP (op : Nat) (seq : Nat)
  | wokeP (op : Nat) (seq : Nat)
  | pushCompleted (op : Nat) (seq : Nat) (ok : Bool)
  | regC (op : Nat) (seq : Nat)
  | resolvedC (op : Nat) (seq : Nat) (res : Option T)
  | nextImmediate (op : Nat) (res : Option T)
  | closedQ
deriving DecidableEq, Repr

namespace BoundedQueue

/-- Source `tryPushIntrenal` (sic): hand the value to the oldest waiting
consumer if one exists, else append to the buffer if it has room, else
fail.  Returns (state, success, events). -/
def tryPushIntrenal {T : Type} (s : BoundedQueue T) (v : T) :
    BoundedQueue T × Bool × List (QEvent T) :=
  match s.waitingConsumers with
  | c :: cs => ({ s with waitingConsumers := cs }, true, [.resolvedC c.1 c.2 (some v)])
  | [] =>
    if s.buffer.length < s.capacity then
      ({ s with buffer := s.buffer ++ [v] }, true, [])
    else (s, false, [])

/-- Source `tryPush`: fail if closed, else `tryPushIntrenal`. -/
def tryPush {T : Type} (s : BoundedQueue T) (v : T) :
    BoundedQueue T × List (QEvent T) :=
  if s.closed then (s, [.tryPushed false])
  else
    let r := tryPushIntrenal s v
    (r.1, r.2.2 ++ [.tryPushed r.2.1])

/-- The synchronous part of `push(value)` up to its first suspension:
return `false` if closed; return `true` if `tryPushIntrenal` succeeds;
otherwise register as a waiting producer and suspend. -/
def push {T : Type} (s : BoundedQueue T) (op : Nat) (v : T) :
    BoundedQueue T × List (QEvent T) :=
  if s.closed then (s, [.pushImmediate op false])
  else
    let r := tryPushIntrenal s v
    if r.2.1 then (r.1, r.2.2 ++ [.pushImmediate op true])
    else
      ({ r.1 with waitingProducers := r.1.waitingProducers ++ [⟨op, v, r.1.clock⟩],
                  clock := r.1.clock + 1 },
       [.regP op r.1.clock])

/-- Resume the `i`-th woken producer: the next round of `push`'s
`while (true)` loop after its `await` resolved with `Opening`.  It
re-checks `closed`, retries `tryPushIntrenal`, and on failure registers
again at the back of the producer queue. -/
def resumePush {T : Type} (s : BoundedQueue T) (i : Nat) :
    BoundedQueue T × List (QEvent T) :=
  match s.woken[i]? with
  | none => (s, [])
  | some p =>
    let s1 := { s with woken := s.woken.eraseIdx i }
    if s1.closed then (s1, [.pushCompleted p.op p.seq false])
    else
      let r := tryPushIntrenal s1 p.val
      if r.2.1 then (r.1, r.2.2 ++ [.pushCompleted p.op p.seq true])
      else
        ({ r.1 with waitingProducers := r.1.waitingProducers ++ [{ p with seq := r.1.clock }],
                    clock := r.1.clock + 1 },
         [.regP p.op r.1.clock])

/-- First phase of `nextInternal`: if a producer is waiting, wake
exactly one (shift the oldest; its retry is now scheduled). -/
def wakeOneProducer {T : Type} (s : BoundedQueue T) :
    BoundedQueue T × List (QEvent T) :=
  match s.waitingProducers with
  | p :: ps => ({ s with waitingProducers := ps, woken := s.woken ++ [p] },
                [.wokeP p.op p.seq])
  | [] => (s, [])

/-- Second phase of `nextInternal`: pop the oldest buffered value, else
report end-of-stream if closed, else register as a waiting consumer and
suspend. -/
def nextCore {T : Type} (s1 : BoundedQueue T) (op : Nat) :
    BoundedQueue T × List (QEvent T) :=
  match s1.buffer with
  | v :: rest => ({ s1 with buffer := rest }, [.nextImmediate op (some v)])
  | [] =>
    if s1.closed then (s1, [.nextImmediate op none])
    else ({ s1 with waitingConsumers := s1.waitingConsumers ++ [(op, s1.clock)],
                    clock := s1.clock + 1 },
          [.regC op s1.clock])

/-- Source `nextInternal`: wake one waiting producer, then serve the request. -/
def nextInternal {T : Type} (s : BoundedQueue T) (op : Nat) :
    BoundedQueue T × List (QEvent T) :=
  let w := wakeOneProducer s
  let r := nextCore w.1 op
  (r.1, w.2 ++ r.2)

/-- Source `close()`: no-op when already closed; otherwise set `closed`,
resolve every waiting consumer with end-of-stream (in order) and wake
every waiting producer with `Opening` (their retries will observe
`closed` and return `false`). -/
def close {T : Type} (s : BoundedQueue T) : BoundedQueue T × List (QEvent T) :=
  if s.closed then (s, [])
  else
    ({ s with closed := true, waitingConsumers := [], waitingProducers := [],
              woken := s.woken ++ s.waitingProducers },
     .closedQ :: (s.waitingConsumers.map (fun c => .resolvedC c.1 c.2 none)
       ++ s.waitingProducers.map (fun p => .wokeP p.op p.seq)))

end BoundedQueue

/-- A scheduler step on a queue: a bare `tryPush`, the start of a
`push` or `next` call (with a fresh operation id chosen by the script),
the resumption of the `i`-th woken producer, or `close`. -/
inductive QStep (T : Type) where
  | tryPush (v : T)
  | push (op : Nat) (v : T)
  | resumePush (i : Nat)
  | next (op : Nat)
  | close
deriving DecidableEq, Repr

/-- Execute one scheduler step. -/
def qStep {T : Type} (s : BoundedQueue T) : QStep T → BoundedQueue T × List (QEvent T)
  | .tryPush v => s.tryPush v
  | .push op v => s.push op v
  | .resumePush i => s.resumePush i
  | .next op => s.nextInternal op
  | .close => s.close

/-- Run a script of scheduler steps, concatenating the event traces. -/
def qRun {T : Type} (s : BoundedQueue T) : List (QStep T) → BoundedQueue T × List (QEvent T)
  | [] => (s, [])
  | st :: rest =>
      let r := qStep s st
      let r2 := qRun r.1 rest
      (r2.1, r.2 ++ r2.2)

/-- The queue state reached from a fresh queue of capacity `c` by a
script. -/
def finalQ (T : Type) (c : Nat) (script : List (QStep T)) : BoundedQueue T :=
  (qRun (initQ T c) script).1

/-! ## FIFO order checkers over queue traces -/

/-- Generic first-in-first-out service checker.  `reg e = some q` marks
`e` as registering a request with sequence number `q`; `serve e = some
q` marks `e` as serving the request with sequence number `q`.  The scan
maintains the pending sequence numbers and demands that every served
request is the earliest-registered one still pending. -/
def fifoCheck {T : Type} (reg : QEvent T → Option Nat) (serve : QEvent T → Option Nat) :
    List (QEvent T) → List Nat → Bool
  | [], _ => true
  | e :: rest, pend =>
    match reg e with
    | some q => fifoCheck reg serve rest (pend ++ [q])
    | none =>
      match serve e with
      | some q => pend.all (fun x => Nat.ble q x) && fifoCheck reg serve rest (pend.erase q)
      | none => fifoCheck reg serve rest pend

/-- Pending sequence numbers after scanning a trace (mirror of
`fifoCheck`'s accumulator). -/
def fifoPend {T : Type} (reg : QEvent T → Option Nat) (serve : QEvent T → Option Nat) :
    List (QEvent T) → List Nat → List Nat
  | [], pend => pend
  | e :: rest, pend =>
    match reg e with
    | some q => fifoPend reg serve rest (pend ++ [q])
    | none =>
      match serve e with
      | some q => fifoPend reg serve rest (pend.erase q)
      | none => fifoPend reg serve rest pend

/-- Consumer registration events. -/
def regCevt {T : Type} : QEvent T → Option Nat
  | .regC _ q => some q
  | _ => none

/-- Consumer service events: a pending consumer is resolved (with a
value or with end-of-stream). -/
def serveCevt {T : Type} : QEvent T → Option Nat
  | .resolvedC _ q _ => some q
  | _ => none

/-- Producer registration events. -/
def regPevt {T : Type} : QEvent T → Option Nat
  | .regP _ q => some q
  | _ => none

/-- Producer wake events: a pending producer is granted its retry. -/
def servePevt {T : Type} : QEvent T → Option Nat
  | .wokeP _ q => some q
  | _ => none

/-! ## mergeAbortSignals (src/abort.ts)

`mergeAbortSignals` creates a derived `AbortController`.  Its setup
loop walks the input signals in order: an already-aborted input aborts
the controller with that input's reason, removes every listener added
so far, and returns; a live input gets an `onAbort` listener.  The
shared `onAbort` handler aborts the controller with the reason of the
first aborted input in iteration order and removes every listener.
`listened` holds the indices with the listener currently attached;
`regLog` (instrumentation) records every `addEventListener` call. -/

structure MSignal where
  aborted : Bool
  reason : String
deriving DecidableEq, Repr

structure MergeState where
  inputs : List MSignal
  /-- Indices of inputs with the `onAbort` listener currently attached. -/
  listened : List Nat
  /-- The derived controller's signal. -/
  derived : MSignal
  /-- Instrumentation: every index on which `addEventListener` was called. -/
  regLog : List Nat
deriving DecidableEq, Repr

/-- Models `controller.abort(r)`: first abort wins, later calls are no-ops. -/
def ctlAbort (d : MSignal) (r : String) : MSignal :=
  if d.aborted then d else ⟨true, r⟩

/-- The setup loop of `mergeAbortSignals` over the remaining inputs,
`i` being the index of the head. -/
def mergeScan (st : MergeState) : List MSignal → Nat → MergeState
  | [], _ => st
  | sg :: rest, i =>
    if sg.aborted then
      { st with derived := ctlAbort st.derived sg.reason, listened := [] }
    else
      mergeScan { st with listened := st.listened ++ [i], regLog := st.regLog ++ [i] } rest (i + 1)

/-- Source `mergeAbortSignals(signals)` at merge time. -/
def mergeAbortSignals (sigs : List MSignal) : MergeState :=
  mergeScan ⟨sigs, [], ⟨false, ""⟩, []⟩ sigs 0

/-- The shared `onAbort` handler: abort the controller with the reason
of the first aborted input, then remove every listener. -/
def onAbort (st : MergeState) : MergeState :=
  let st1 :=
    match st.inputs.find? (fun sg => sg.aborted) with
    | some sg => { st with derived := ctlAbort st.derived sg.reason }
    | none => st
  { st1 with listened := [] }

/-- Input signal `i` fires with reason `r`: its own controller aborts it
(a no-op if it is already aborted) and, if the merge listener is still
attached to it, `onAbort` runs. -/
def fire (st : MergeState) (i : Nat) (r : String) : MergeState :=
  match st.inputs[i]? with
  | none => st
  | some sg =>
    if sg.aborted then st
    else
      let st1 := { st with inputs := st.inputs.set i ⟨true, r⟩ }
      if i ∈ st1.listened then onAbort st1 else st1

/-- A sequence of later fires. -/
def fireAll (st : MergeState) : List (Nat × String) → MergeState
  | [] => st
  | (i, r) :: rest => fireAll (fire st i r) rest

/-! ## Invariants and claim statements -/

/-- Inductive invariant of the queue state machine.  The third conjunct
strengthens the specified producer invariant: while a producer is
pending, the buffer plus the woken producers (whose freed slot is in
flight) plus one slot per waiting consumer cover the capacity. -/
def QInv {T : Type} (s : BoundedQueue T) : Prop :=
  s.buffer.length ≤ s.capacity ∧
  (s.waitingConsumers ≠ [] → s.buffer = []) ∧
  (s.waitingProducers ≠ [] →
    s.closed = false ∧
    s.capacity + s.waitingConsumers.length ≤ s.buffer.length + s.woken.length) ∧
  (s.closed = true → s.waitingProducers = [] ∧ s.waitingConsumers = [])

instance {T : Type} [DecidableEq T] (s : BoundedQueue T) : Decidable (QInv s) := by
  unfold QInv; infer_instance

/-- The registration sequence numbers of the waiting consumers, in
queue order. -/
def consSeqs {T : Type} (s : BoundedQueue T) : List Nat :=
  s.waitingConsumers.map Prod.snd

/-- The registration sequence numbers of the waiting producers, in
queue order. -/
def prodSeqs {T : Type} (s : BoundedQueue T) : List Nat :=
  s.waitingProducers.map PReq.seq

/-- Registration sequence numbers held in the waiter lists are strictly
increasing (front to back) and below the clock. -/
def SeqSorted {T : Type} (s : BoundedQueue T) : Prop :=
  (consSeqs s).Pairwise (· < ·) ∧
  (∀ q ∈ consSeqs s, q < s.clock) ∧
  (prodSeqs s).Pairwise (· < ·) ∧
  (∀ q ∈ prodSeqs s, q < s.clock)

/-- Claim C4 as stated: in every reachable state of a queue of positive
capacity, the buffer never exceeds the capacity, a pending consumer
implies an empty buffer, and a pending producer implies a buffer at
exactly the capacity with the queue open. -/
def c4AsStated : Prop :=
  ∀ (c : Nat) (script : List (QStep Nat)), 0 < c →
    (finalQ Nat c script).buffer.length ≤ (finalQ Nat c script).capacity ∧
    ((finalQ Nat c script).waitingConsumers ≠ [] → (finalQ Nat c script).buffer = []) ∧
    ((finalQ Nat c script).waitingProducers ≠ [] →
      (finalQ Nat c script).closed = false ∧
      (finalQ Nat c script).buffer.length = (finalQ Nat c script).capacity)

/-- Scan for claim C9 as stated, producer side: pending producers are
tracked by operation id with their *first* registration sequence
number; whenever a pending producer completes a successful enqueue, it
must carry the smallest first-registration number among the pending
producers. -/
def prodCompCheck {T : Type} : List (QEvent T) → List (Nat × Nat) → Bool
  | [], _ => true
  | e :: rest, pend =>
    match e with
    | .regP op q =>
      if pend.any (fun x => x.1 == op) then prodCompCheck rest pend
      else prodCompCheck rest (pend ++ [(op, q)])
    | .pushCompleted op _ ok =>
      let others := pend.filter (fun x => x.1 != op)
      (if ok then
        match pend.find? (fun x => x.1 == op) with
        | some me => others.all (fun x => Nat.ble me.2 x.2)
        | none => true
       else true) && prodCompCheck rest others
    | _ => prodCompCheck rest pend

/-- Scan for claim C9 as stated, consumer side: whenever a pending
consumer completes with a dequeued value, it must be the
earliest-registered pending consumer. -/
def consCompCheck {T : Type} : List (QEvent T) → List (Nat × Nat) → Bool
  | [], _ => true
  | e :: rest, pend =>
    match e with
    | .regC op q =>
      if pend.any (fun x => x.1 == op) then consCompCheck rest pend
      else consCompCheck rest (pend ++ [(op, q)])
    | .resolvedC op _ res =>
      let others := pend.filter (fun x => x.1 != op)
      (if res.isSome then
        match pend.find? (fun x => x.1 == op) with
        | some me => others.all (fun x => Nat.ble me.2 x.2)
        | none => true
       else true) && consCompCheck rest others
    | _ => consCompCheck rest pend

/-- Claim C9 as stated: in every reachable interleaving, waiting
producers and waiting consumers each complete (with a successful
enqueue, respectively a dequeued value) in strict
first-registered-first-served order. -/
def c9AsStated : Prop :=
  ∀ (c : Nat) (script : List (QStep Nat)), 0 < c →
    prodCompCheck (qRun (initQ Nat c) script).2 [] = true ∧
    consCompCheck (qRun (initQ Nat c) script).2 [] = true

/-- Claim C3 as stated: classification of the fetch step by provenance —
a failure because the source fired stops the loop, any other failure of
the event source is fatal, end-of-stream stops the loop. -/
def c3AsStated : Prop :=
  ∀ (rest : List (LoopInput Nat)) (inp : LoopInput Nat),
    (∀ r : JsError, inp.fetchAbort = some r →
      loopBody (inp :: rest) = some (.abortedOnFetch r, [])) ∧
    (∀ e : JsError, inp.fetchAbort = none → inp.iterNext = .err e →
      loopBody (inp :: rest) = some (.fatal e, [])) ∧
    (inp.fetchAbort = none → inp.iterNext = .val .eos →
      loopBody (inp :: rest) = some (.endOfStream, []))

/-- Claim C8 as stated: the merged signal fires with the reason of the
first input to fire and ignores later fires; and if some input is
already fired at merge time, the derived signal fires synchronously
with such an input's reason and *no* listener registration is
performed. -/
def c8AsStated : Prop :=
  (∀ (sigs : List MSignal) (i : Nat) (r : String) (fires : List (Nat × String)),
    (∀ sg ∈ sigs, sg.aborted = false) → i < sigs.length →
    (fireAll (fire (mergeAbortSignals sigs) i r) fires).derived = ⟨true, r⟩) ∧
  (∀ sigs : List MSignal, (∃ sg ∈ sigs, sg.aborted = true) →
    (∃ sg ∈ sigs, sg.aborted = true ∧ (mergeAbortSignals sigs).derived = ⟨true, sg.reason⟩) ∧
    (mergeAbortSignals sigs).regLog = [])

/-! ## TaskGroup lemmas -/

theorem tgStep_done (tg : TaskGroup) :
    tgStep tg .done =
      if tg.count - 1 = 0 then (⟨tg.count - 1, []⟩, [TGEvent.released tg.waiters])
      else (⟨tg.count - 1, tg.waiters⟩, []) := by
  by_cases h : tg.count - 1 = 0 <;> simp [tgStep, TaskGroup.done, h]

theorem tgStep_wait (tg : TaskGroup) (id : Nat) :
    tgStep tg (.wait id) =
      if tg.count = 0 then (tg, [TGEvent.immediate id])
      else (⟨tg.count, tg.waiters ++ [id]⟩, [TGEvent.registered id]) := by
  by_cases h : tg.count = 0 <;> simp [tgStep, TaskGroup.wait, h]

theorem tgRun_state_cons (tg : TaskGroup) (op : TGOp) (rest : List TGOp) :
    (tgRun tg (op :: rest)).1 = (tgRun (tgStep tg op).1 rest).1 := rfl

theorem tgRun_trace_cons (tg : TaskGroup) (op : TGOp) (rest : List TGOp) :
    (tgRun tg (op :: rest)).2 = (tgStep tg op).2 ++ (tgRun (tgStep tg op).1 rest).2 := rfl

theorem tgRun_count (σ : List TGOp) : ∀ tg : TaskGroup, onlyDoneWait σ →
    (tgRun tg σ).1.count = tg.count - doneCount σ := by
  induction σ with
  | nil => intro tg _; simp [tgRun, doneCount]
  | cons op rest ih =>
    intro tg h
    have hop := h op (List.mem_cons_self _ _)
    have hrest : onlyDoneWait rest := fun o ho => h o (List.mem_cons_of_mem _ ho)
    rw [tgRun_state_cons]
    cases op with
    | add n => simp [TGOp.isAdd] at hop
    | done =>
      rw [ih _ hrest, tgStep_done]
      simp only [doneCount]
      split <;> simp <;> omega
    | wait id =>
      rw [ih _ hrest, tgStep_wait]
      simp only [doneCount]
      split <;> simp

theorem tgRun_no_release (σ : List TGOp) : ∀ tg : TaskGroup, onlyDoneWait σ →
    (doneCount σ : Int) < tg.count →
    ∀ ids, TGEvent.released ids ∉ (tgRun tg σ).2 := by
  induction σ with
  | nil => intro tg _ _ ids; simp [tgRun]
  | cons op rest ih =>
    intro tg h hlt ids
    have hop := h op (List.mem_cons_self _ _)
    have hrest : onlyDoneWait rest := fun o ho => h o (List.mem_cons_of_mem _ ho)
    rw [tgRun_trace_cons]
    cases op with
    | add n => simp [TGOp.isAdd] at hop
    | done =>
      simp only [doneCount] at hlt
      push_cast at hlt
      rw [tgStep_done, if_neg (show ¬ (tg.count - 1 = 0) by omega)]
      simp only [List.nil_append]
      exact ih _ hrest (by dsimp; omega) ids
    | wait id =>
      simp only [doneCount] at hlt
      rw [tgStep_wait]
      by_cases h0 : tg.count = 0
      · rw [if_pos h0]
        intro hmem
        rcases List.mem_append.1 hmem with hm | hm
        · exact TGEvent.noConfusion (List.mem_singleton.1 hm)
        · exact ih _ hrest hlt ids hm
      · rw [if_neg h0]
        intro hmem
        rcases List.mem_append.1 hmem with hm | hm
        · exact TGEvent.noConfusion (List.mem_singleton.1 hm)
        · exact ih ⟨tg.count, tg.waiters ++ [id]⟩ hrest hlt ids hm

theorem tgRun_drained (σ : List TGOp) : ∀ tg : TaskGroup, onlyDoneWait σ →
    doneCount σ = 0 → tg.count = 0 →
    (tgRun tg σ).1 = tg ∧ ∀ e ∈ (tgRun tg σ).2, ∃ id, e = TGEvent.immediate id := by
  induction σ with
  | nil => intro tg _ _ _; exact ⟨rfl, by simp [tgRun]⟩
  | cons op rest ih =>
    intro tg h hdc hc
    have hop := h op (List.mem_cons_self _ _)
    have hrest : onlyDoneWait rest := fun o ho => h o (List.mem_cons_of_mem _ ho)
    cases op with
    | add n => simp [TGOp.isAdd] at hop
    | done => simp [doneCount] at hdc
    | wait id =>
      simp only [doneCount] at hdc
      have hstep : tgStep tg (.wait id) = (tg, [TGEvent.immediate id]) := by
        rw [tgStep_wait, if_pos hc]
      rw [tgRun_state_cons, tgRun_trace_cons, hstep]
      obtain ⟨h1, h2⟩ := ih tg hrest hdc hc
      refine ⟨h1, ?_⟩
      intro e he
      rcases List.mem_append.1 he with hm | hm
      · exact ⟨id, List.mem_singleton.1 hm⟩
      · exact h2 e hm

theorem tgRun_full_release (σ : List TGOp) : ∀ tg : TaskGroup, onlyDoneWait σ →
    (doneCount σ : Int) = tg.count → 0 < tg.count →
    (tgRun tg σ).1.waiters = [] ∧ (tgRun tg σ).1.count = 0 ∧
    (∀ id, (id ∈ tg.waiters ∨ TGEvent.registered id ∈ (tgRun tg σ).2) →
      ∃ ids, TGEvent.released ids ∈ (tgRun tg σ).2 ∧ id ∈ ids) := by
  induction σ with
  | nil => intro tg _ hdc hpos; exfalso; simp [doneCount] at hdc; omega
  | cons op rest ih =>
    intro tg h hdc hpos
    have hop := h op (List.mem_cons_self _ _)
    have hrest : onlyDoneWait rest := fun o ho => h o (List.mem_cons_of_mem _ ho)
    rw [tgRun_state_cons, tgRun_trace_cons]
    cases op with
    | add n => simp [TGOp.isAdd] at hop
    | done =>
      simp only [doneCount] at hdc
      push_cast at hdc
      by_cases h1 : tg.count = 1
      · -- the n-th done: every waiter is released here
        have hdr : doneCount rest = 0 := by omega
        have hstep : tgStep tg .done = (⟨0, []⟩, [TGEvent.released tg.waiters]) := by
          rw [tgStep_done, if_pos (by omega)]
          simp [h1]
        rw [hstep]
        obtain ⟨hfix, himm⟩ := tgRun_drained rest ⟨0, []⟩ hrest hdr rfl
        rw [hfix]
        refine ⟨rfl, rfl, ?_⟩
        intro id hid
        refine ⟨tg.waiters, List.mem_append.2 (Or.inl (List.mem_singleton.2 rfl)), ?_⟩
        rcases hid with hid | hid
        · exact hid
        · exfalso
          rcases List.mem_append.1 hid with h2 | h2
          · exact TGEvent.noConfusion (List.mem_singleton.1 h2)
          · obtain ⟨i, hi⟩ := himm _ h2
            exact TGEvent.noConfusion hi
      · -- an earlier done: count stays positive, recurse
        have hstep : tgStep tg .done = (⟨tg.count - 1, tg.waiters⟩, []) := by
          rw [tgStep_done, if_neg (by omega)]
        rw [hstep]
        obtain ⟨hw, hc0, hrel⟩ :=
          ih ⟨tg.count - 1, tg.waiters⟩ hrest (by dsimp; omega) (by dsimp; omega)
        refine ⟨hw, hc0, ?_⟩
        intro id hid
        simp only [List.nil_append] at hid ⊢
        exact hrel id hid
    | wait id0 =>
      simp only [doneCount] at hdc
      have hne : ¬ tg.count = 0 := by omega
      have hstep : tgStep tg (.wait id0) =
          (⟨tg.count, tg.waiters ++ [id0]⟩, [TGEvent.registered id0]) := by
        rw [tgStep_wait, if_neg hne]
      rw [hstep]
      obtain ⟨hw, hc0, hrel⟩ := ih ⟨tg.count, tg.waiters ++ [id0]⟩ hrest (by exact hdc) hpos
      refine ⟨hw, hc0, ?_⟩
      intro id hid
      have hid2 : id ∈ tg.waiters ++ [id0] ∨
          TGEvent.registered id ∈ (tgRun ⟨tg.count, tg.waiters ++ [id0]⟩ rest).2 := by
        rcases hid with hid | hid
        · exact Or.inl (List.mem_append.2 (Or.inl hid))
        · rcases List.mem_cons.1 hid with h2 | h2
          · obtain rfl : id = id0 := by
              have := TGEvent.registered.injEq id id0 ▸ h2
              simpa using h2
            exact Or.inl (List.mem_append.2 (Or.inr (List.mem_singleton.2 rfl)))
          · exact Or.inr h2
      obtain ⟨ids, hin, hmem⟩ := hrel id hid2
      exact ⟨ids, List.mem_cons_of_mem _ hin, hmem⟩


/-! ## Claim C7, C10: TaskGroup behaviour -/

/-- C7: `TaskGroup.wait()` resolves immediately whenever the counter is
`0` — in particular on a fresh group where no `add` has run — and after
`add(n)` followed by an interleaving of exactly `n` `done()` calls with
any number of `wait()` calls, no waiter is released while fewer than
`n` `done()` calls have run, and at the end every waiter that
registered has been released (so releases happen exactly at the n-th
`done()`). -/
theorem c7_taskgroup_wait_release (n : Nat) (σ : List TGOp)
    (hOnly : onlyDoneWait σ) (hCount : doneCount σ = n) (hPos : 0 < n) :
    (∀ id : Nat, (TaskGroup.init.wait id).2 = true) ∧
    (∀ σ₁ σ₂, σ = σ₁ ++ σ₂ → doneCount σ₁ < n →
      ∀ ids, TGEvent.released ids ∉ (tgRun (TaskGroup.init.add n) σ₁).2) ∧
    (tgRun (TaskGroup.init.add n) σ).1.waiters = [] ∧
    (∀ id, TGEvent.registered id ∈ (tgRun (TaskGroup.init.add n) σ).2 →
      ∃ ids, TGEvent.released ids ∈ (tgRun (TaskGroup.init.add n) σ).2 ∧ id ∈ ids) := by
  have hcnt : (TaskGroup.init.add n).count = (n : Int) := by
    simp [TaskGroup.init, TaskGroup.add]
  refine ⟨fun id => rfl, ?_, ?_, ?_⟩
  · intro σ₁ σ₂ hsplit hlt ids
    have hOnly1 : onlyDoneWait σ₁ := fun o ho =>
      hOnly o (hsplit ▸ List.mem_append.2 (Or.inl ho))
    exact tgRun_no_release σ₁ _ hOnly1 (by rw [hcnt]; exact_mod_cast hlt) ids
  · exact (tgRun_full_release σ _ hOnly (by rw [hcnt, hCount])
      (by rw [hcnt]; exact_mod_cast hPos)).1
  · intro id hreg
    exact (tgRun_full_release σ _ hOnly (by rw [hcnt, hCount])
      (by rw [hcnt]; exact_mod_cast hPos)).2.2 id (Or.inr hreg)

/-- Witness for C7 at `n = 1`, `σ = [wait 0, done]`. -/
theorem c7_witness :
    (tgRun (TaskGroup.init.add 1) [TGOp.wait 0, TGOp.done]).1.waiters = [] :=
  (c7_taskgroup_wait_release 1 [TGOp.wait 0, TGOp.done]
    (by unfold onlyDoneWait; decide) (by decide) (by decide)).2.2.1

/-- C10: waiters are released only by a `done()` that brings the counter
to exactly `0`; `add` never touches the waiter list.  After an extra
unmatched `done()` on a zero counter: no release happens, the counter is
`-1`, a `wait()` suspends, a compensating `add(1)` brings the counter
back to `0` while the registered waiter stays suspended, and a fresh
`wait()` now resolves immediately. -/
theorem c10_unmatched_done (tg : TaskGroup) (w1 w2 : Nat) (h0 : tg.count = 0) :
    (∀ (g : TaskGroup) (n : Int), (g.add n).waiters = g.waiters) ∧
    (∀ g : TaskGroup, (TaskGroup.done g).2 ≠ [] → g.count = 1) ∧
    (tg.done).2 = [] ∧ (tg.done).1.count = -1 ∧
    ((tg.done).1.wait w1).2 = false ∧
    ((((tg.done).1.wait w1).1).add 1).count = 0 ∧
    ((((tg.done).1.wait w1).1).add 1).waiters = tg.waiters ++ [w1] ∧
    (((((tg.done).1.wait w1).1).add 1).wait w2).2 = true := by
  have hdone : tg.done = (⟨-1, tg.waiters⟩, []) := by
    simp only [TaskGroup.done, h0]
    norm_num
  have hwait : ((⟨-1, tg.waiters⟩ : TaskGroup).wait w1) =
      (⟨-1, tg.waiters ++ [w1]⟩, false) := by
    simp only [TaskGroup.wait]
    norm_num
  refine ⟨fun g n => rfl, ?_, ?_⟩
  · intro g hne
    by_cases h : g.count - 1 = 0
    · omega
    · exact absurd (by simp [TaskGroup.done, h]) hne
  · rw [hdone]
    simp only [hwait, TaskGroup.add, TaskGroup.wait]
    norm_num

/-- Witness for C10 on a fresh `TaskGroup`. -/
theorem c10_witness :
    ((((TaskGroup.init.done).1.wait 4).1).add 1).waiters = [] ++ [4] ∧
    (((((TaskGroup.init.done).1.wait 4).1).add 1).wait 5).2 = true :=
  ⟨(c10_unmatched_done TaskGroup.init 4 5 rfl).2.2.2.2.2.2.1,
   (c10_unmatched_done TaskGroup.init 4 5 rfl).2.2.2.2.2.2.2⟩

/-! ## Claims C1, C2, C3: the event loop -/

/-- C1: whenever the loop body exits — end-of-stream, a cancellation
break, or a fatal failure propagating — `launchEventLoop` performs the
single `add(1)` and then `done()` exactly once (the `finally` path), so
the final counter equals the initial one and, when no other task is
registered, every waiter of the group is released on exit. -/
theorem c1_done_exactly_once {T : Type} (inputs : List (LoopInput T)) (tg : TaskGroup)
    (r0 : ExitCause × List T) (h : loopBody inputs = some r0) :
    ∃ run : LoopRun T, launchEventLoop inputs tg = some run ∧
      run.cause = r0.1 ∧ run.handled = r0.2 ∧
      run.tg.count = tg.count ∧
      (tg.count = 0 → run.released = tg.waiters ∧ run.tg.waiters = []) := by
  refine ⟨⟨r0.1, r0.2, ((tg.add 1).done).1, ((tg.add 1).done).2⟩, ?_, rfl, rfl, ?_, ?_⟩
  · simp [launchEventLoop, h]
  · simp only [TaskGroup.done, TaskGroup.add]
    split <;> dsimp <;> omega
  · intro h0
    simp only [TaskGroup.done, TaskGroup.add, h0]
    norm_num

/-- Witness for C1: a one-step end-of-stream run with a waiter. -/
theorem c1_witness :
    ∃ run : LoopRun Nat,
      launchEventLoop [(⟨.val .eos, none, .val (), none⟩ : LoopInput Nat)] ⟨0, [7]⟩ = some run ∧
      run.cause = ExitCause.endOfStream ∧ run.handled = [] ∧
      run.tg.count = (0 : Int) ∧
      ((0 : Int) = 0 → run.released = [7] ∧ run.tg.waiters = []) :=
  c1_done_exactly_once [⟨.val .eos, none, .val (), none⟩] ⟨0, [7]⟩
    (ExitCause.endOfStream, []) rfl

/-- C2 exhibit (code bug): the handler rejects with a `DOMException` it
raised itself — the loop's cancellation source never fired
(`dispatchAbort = none`) — yet the loop breaks cleanly (`Stopped`)
instead of letting the failure propagate as fatal, because the code
classifies by `instanceof DOMException` although its own comment says
«Break the loop iff it is aborted from outside». -/
theorem c2_handler_domexception_stops_loop :
    loopBody [(⟨.val (.item 0), none, .err (.domExn "DataError" "boom"), none⟩ : LoopInput Nat)] =
      some (.abortedOnDispatch (.domExn "DataError" "boom"), []) := by decide

/-- C3 counterexample: the event source itself rejects with a
`DOMException` while the cancellation source never fires; the claim
demands fatal propagation, but the loop classifies any `DOMException`
as a cancellation and stops cleanly. -/
theorem c3_counterexample : ¬ c3AsStated := by
  intro h
  have hx := (h [] ⟨.err (.domExn "EncodingError" "bad"), none, .val (), none⟩).2.1
    (.domExn "EncodingError" "bad") rfl rfl
  exact absurd hx (by decide)

/-- C3 (amended): the fetch step classifies by `DOMException`-ness of
the rejection: a `DOMException` rejection — in particular the rejection
produced when the cancellation source fires with its default
`DOMException` reason — transitions the loop to Stopped; a
non-`DOMException` failure (from the event source, or an abort reason
that is not a `DOMException`) propagates as fatal; end-of-stream
transitions to Stopped. -/
theorem c3_fetch_classification {T : Type} (rest : List (LoopInput T)) (inp : LoopInput T) :
    (∀ e : JsError, withAbort inp.iterNext inp.fetchAbort = .err e →
      (e.isDOMException = true → loopBody (inp :: rest) = some (.abortedOnFetch e, [])) ∧
      (e.isDOMException = false → loopBody (inp :: rest) = some (.fatal e, []))) ∧
    (withAbort inp.iterNext inp.fetchAbort = .val .eos →
      loopBody (inp :: rest) = some (.endOfStream, [])) := by
  constructor
  · intro e he
    constructor <;> intro hd <;> simp [loopBody, he, hd]
  · intro he
    simp [loopBody, he]

/-- Witness for C3 (amended): the source fires with the default
`DOMException` reason during the fetch. -/
theorem c3_witness :
    loopBody [(⟨.val (.item 0), some (.domExn "AbortError" "signal aborted"),
        .val (), none⟩ : LoopInput Nat)] =
      some (.abortedOnFetch (.domExn "AbortError" "signal aborted"), []) :=
  ((c3_fetch_classification []
      (⟨.val (.item 0), some (.domExn "AbortError" "signal aborted"),
        .val (), none⟩ : LoopInput Nat)).1
    (.domExn "AbortError" "signal aborted") rfl).1 rfl

/-- C2 (amended classification, companion fact): dispatch failures are
classified by identity with `timeoutError` first, then
`DOMException`-ness: the timeout sentinel is swallowed and the loop
continues, any other `DOMException` breaks the loop, anything else is
rethrown. -/
theorem c2_dispatch_classification {T : Type} (rest : List (LoopInput T)) (inp : LoopInput T)
    (v : T) (hit : inp.iterNext = .val (.item v)) (hfa : inp.fetchAbort = none) :
    (∀ e : JsError, withAbort inp.handler inp.dispatchAbort = .err e →
      (e = .timeoutSentinel → loopBody (inp :: rest) = loopBody rest) ∧
      (e ≠ .timeoutSentinel → e.isDOMException = true →
        loopBody (inp :: rest) = some (.abortedOnDispatch e, [])) ∧
      (e.isDOMException = false → loopBody (inp :: rest) = some (.fatal e, []))) := by
  have hfetch : withAbort inp.iterNext inp.fetchAbort = .val (.item v) := by
    rw [hfa]; exact hit
  intro e he
  refine ⟨?_, ?_, ?_⟩
  · intro hd; simp [loopBody, hfetch, he, hd]
  · intro hd1 hd2; simp [loopBody, hfetch, he, hd1, hd2]
  · intro hd
    have hne : e ≠ .timeoutSentinel := by
      intro hh; rw [hh] at hd; exact Bool.noConfusion hd
    simp [loopBody, hfetch, he, hne, hd]


/-! ## BoundedQueue step-shape lemmas -/

theorem qRun_state_cons {T : Type} (s : BoundedQueue T) (st : QStep T) (rest : List (QStep T)) :
    (qRun s (st :: rest)).1 = (qRun (qStep s st).1 rest).1 := rfl

theorem qRun_trace_cons {T : Type} (s : BoundedQueue T) (st : QStep T) (rest : List (QStep T)) :
    (qRun s (st :: rest)).2 = (qStep s st).2 ++ (qRun (qStep s st).1 rest).2 := rfl

theorem qRun_append {T : Type} (a : List (QStep T)) : ∀ (s : BoundedQueue T) (b : List (QStep T)),
    qRun s (a ++ b) = ((qRun (qRun s a).1 b).1, (qRun s a).2 ++ (qRun (qRun s a).1 b).2) := by
  induction a with
  | nil => intro s b; simp [qRun]
  | cons st rest ih =>
    intro s b
    rw [List.cons_append]
    rw [show qRun s (st :: (rest ++ b)) =
      ((qRun (qStep s st).1 (rest ++ b)).1,
       (qStep s st).2 ++ (qRun (qStep s st).1 (rest ++ b)).2) from rfl]
    rw [ih (qStep s st).1 b, qRun_state_cons, qRun_trace_cons]
    simp

/-- The three outcomes of `tryPushIntrenal`: direct handoff to the
oldest waiting consumer, append to a non-full buffer, or failure. -/
theorem tpi_cases {T : Type} (s : BoundedQueue T) (v : T) :
    (∃ c cs, s.waitingConsumers = c :: cs ∧
      BoundedQueue.tryPushIntrenal s v =
        ({ s with waitingConsumers := cs }, true, [.resolvedC c.1 c.2 (some v)])) ∨
    (s.waitingConsumers = [] ∧ s.buffer.length < s.capacity ∧
      BoundedQueue.tryPushIntrenal s v = ({ s with buffer := s.buffer ++ [v] }, true, [])) ∨
    (s.waitingConsumers = [] ∧ s.capacity ≤ s.buffer.length ∧
      BoundedQueue.tryPushIntrenal s v = (s, false, [])) := by
  rcases hC : s.waitingConsumers with _ | ⟨c, cs⟩
  · by_cases hB : s.buffer.length < s.capacity
    · exact Or.inr (Or.inl ⟨rfl, hB, by simp [BoundedQueue.tryPushIntrenal, hC, hB]⟩)
    · exact Or.inr (Or.inr ⟨rfl, by omega, by simp [BoundedQueue.tryPushIntrenal, hC, hB]⟩)
  · exact Or.inl ⟨c, cs, rfl, by simp [BoundedQueue.tryPushIntrenal, hC]⟩

theorem wakeOne_nil {T : Type} (s : BoundedQueue T) (hP : s.waitingProducers = []) :
    BoundedQueue.wakeOneProducer s = (s, []) := by
  simp [BoundedQueue.wakeOneProducer, hP]

theorem wakeOne_cons {T : Type} (s : BoundedQueue T) (p : PReq T) (ps : List (PReq T))
    (hP : s.waitingProducers = p :: ps) :
    BoundedQueue.wakeOneProducer s =
      ({ s with waitingProducers := ps, woken := s.woken ++ [p] }, [.wokeP p.op p.seq]) := by
  simp [BoundedQueue.wakeOneProducer, hP]

theorem nextCore_pop {T : Type} (s1 : BoundedQueue T) (op : Nat) (v : T) (rest : List T)
    (hB : s1.buffer = v :: rest) :
    BoundedQueue.nextCore s1 op = ({ s1 with buffer := rest }, [.nextImmediate op (some v)]) := by
  simp [BoundedQueue.nextCore, hB]

theorem nextCore_eos {T : Type} (s1 : BoundedQueue T) (op : Nat)
    (hB : s1.buffer = []) (hcl : s1.closed = true) :
    BoundedQueue.nextCore s1 op = (s1, [.nextImmediate op none]) := by
  simp [BoundedQueue.nextCore, hB, hcl]

theorem nextCore_reg {T : Type} (s1 : BoundedQueue T) (op : Nat)
    (hB : s1.buffer = []) (hcl : s1.closed = false) :
    BoundedQueue.nextCore s1 op =
      ({ s1 with waitingConsumers := s1.waitingConsumers ++ [(op, s1.clock)],
                 clock := s1.clock + 1 }, [.regC op s1.clock]) := by
  simp [BoundedQueue.nextCore, hB, hcl]

theorem nextInternal_phases {T : Type} (s : BoundedQueue T) (op : Nat) :
    s.nextInternal op = ((BoundedQueue.nextCore (BoundedQueue.wakeOneProducer s).1 op).1,
      (BoundedQueue.wakeOneProducer s).2 ++ (BoundedQueue.nextCore (BoundedQueue.wakeOneProducer s).1 op).2) := rfl

/-! ## The queue invariant is inductive -/

theorem qinv_tryPush {T : Type} (s : BoundedQueue T) (v : T) (h : QInv s) :
    QInv (s.tryPush v).1 := by
  obtain ⟨h1, h2, h3, h4⟩ := h
  by_cases hcl : s.closed = true
  · simpa [BoundedQueue.tryPush, hcl] using ⟨h1, h2, h3, h4⟩
  · rw [show s.tryPush v =
        ((BoundedQueue.tryPushIntrenal s v).1,
         (BoundedQueue.tryPushIntrenal s v).2.2 ++
           [.tryPushed (BoundedQueue.tryPushIntrenal s v).2.1]) by
      simp [BoundedQueue.tryPush, hcl]]
    rcases tpi_cases s v with ⟨c, cs, hC, heq⟩ | ⟨hC, hB, heq⟩ | ⟨hC, hB, heq⟩ <;> rw [heq]
    · refine ⟨h1, ?_, ?_, ?_⟩
      · intro hne; exact h2 (by rw [hC]; simp)
      · intro hP
        obtain ⟨hc1, hc2⟩ := h3 hP
        refine ⟨hc1, ?_⟩
        simp [hC] at hc2 ⊢
        omega
      · intro hc; exact absurd hc hcl
    · refine ⟨?_, ?_, ?_, ?_⟩
      · simp; omega
      · intro hne; simp [hC] at hne
      · intro hP
        obtain ⟨hc1, hc2⟩ := h3 hP
        refine ⟨hc1, ?_⟩
        simp [hC] at hc2 ⊢
        omega
      · intro hc; exact absurd hc hcl
    · exact ⟨h1, h2, h3, h4⟩

theorem qinv_push {T : Type} (s : BoundedQueue T) (op : Nat) (v : T) (h : QInv s) :
    QInv (s.push op v).1 := by
  obtain ⟨h1, h2, h3, h4⟩ := h
  by_cases hcl : s.closed = true
  · simpa [BoundedQueue.push, hcl] using ⟨h1, h2, h3, h4⟩
  · rcases tpi_cases s v with ⟨c, cs, hC, heq⟩ | ⟨hC, hB, heq⟩ | ⟨hC, hB, heq⟩
    · rw [show (s.push op v).1 = { s with waitingConsumers := cs } by
        simp [BoundedQueue.push, hcl, heq]]
      refine ⟨h1, ?_, ?_, ?_⟩
      · intro hne; exact h2 (by rw [hC]; simp)
      · intro hP
        obtain ⟨hc1, hc2⟩ := h3 hP
        refine ⟨hc1, ?_⟩
        simp [hC] at hc2 ⊢
        omega
      · intro hc; exact absurd hc hcl
    · rw [show (s.push op v).1 = { s with buffer := s.buffer ++ [v] } by
        simp [BoundedQueue.push, hcl, heq]]
      refine ⟨?_, ?_, ?_, ?_⟩
      · simp; omega
      · intro hne; simp [hC] at hne
      · intro hP
        obtain ⟨hc1, hc2⟩ := h3 hP
        refine ⟨hc1, ?_⟩
        simp [hC] at hc2 ⊢
        omega
      · intro hc; exact absurd hc hcl
    · rw [show (s.push op v).1 =
          { s with waitingProducers := s.waitingProducers ++ [⟨op, v, s.clock⟩],
                   clock := s.clock + 1 } by
        simp [BoundedQueue.push, hcl, heq]]
      refine ⟨h1, ?_, ?_, ?_⟩
      · intro hne; exact h2 hne
      · intro _
        refine ⟨by simpa using hcl, ?_⟩
        rw [hC]
        simp
        omega
      · intro hc; exact absurd hc hcl

theorem qinv_resumePush {T : Type} (s : BoundedQueue T) (i : Nat) (h : QInv s) :
    QInv (s.resumePush i).1 := by
  obtain ⟨cap, buf, wc, wp, wk, cl, ck⟩ := s
  obtain ⟨h1, h2, h3, h4⟩ := h
  simp only at h1 h2 h3 h4
  rcases hget : wk[i]? with _ | p
  · simpa [BoundedQueue.resumePush, hget] using ⟨h1, h2, h3, h4⟩
  · have hi : i < wk.length := (List.getElem?_eq_some.1 hget).1
    have hlen : (wk.eraseIdx i).length = wk.length - 1 := List.length_eraseIdx_of_lt hi
    cases cl with
    | true =>
      rw [show (BoundedQueue.resumePush ⟨cap, buf, wc, wp, wk, true, ck⟩ i).1 =
          ⟨cap, buf, wc, wp, wk.eraseIdx i, true, ck⟩ by
        simp [BoundedQueue.resumePush, hget]]
      obtain ⟨hp0, hc0⟩ := h4 rfl
      exact ⟨h1, h2, fun hne => absurd hp0 hne, fun _ => ⟨hp0, hc0⟩⟩
    | false =>
      rcases tpi_cases ⟨cap, buf, wc, wp, wk.eraseIdx i, false, ck⟩ p.val with
        ⟨c, cs, hC, heq⟩ | ⟨hC, hB, heq⟩ | ⟨hC, hB, heq⟩
      · replace hC : wc = c :: cs := hC
        rw [show (BoundedQueue.resumePush ⟨cap, buf, wc, wp, wk, false, ck⟩ i).1 =
            ⟨cap, buf, cs, wp, wk.eraseIdx i, false, ck⟩ by
          simp [BoundedQueue.resumePush, hget, heq]]
        refine ⟨h1, ?_, ?_, ?_⟩
        · intro _
          exact h2 (by rw [hC]; simp)
        · intro hP
          replace hP : wp ≠ [] := hP
          obtain ⟨hc1, hc2⟩ := h3 hP
          rw [hC] at hc2
          refine ⟨rfl, ?_⟩
          show cap + cs.length ≤ buf.length + (wk.eraseIdx i).length
          rw [hlen]
          simp at hc2
          omega
        · intro hc; exact Bool.noConfusion hc
      · replace hC : wc = [] := hC
        replace hB : buf.length < cap := hB
        rw [show (BoundedQueue.resumePush ⟨cap, buf, wc, wp, wk, false, ck⟩ i).1 =
            ⟨cap, buf ++ [p.val], wc, wp, wk.eraseIdx i, false, ck⟩ by
          simp [BoundedQueue.resumePush, hget, heq]]
        refine ⟨?_, ?_, ?_, ?_⟩
        · show (buf ++ [p.val]).length ≤ cap
          rw [List.length_append]
          simp
          omega
        · intro hne
          exact absurd hC (by simpa using hne)
        · intro hP
          replace hP : wp ≠ [] := hP
          obtain ⟨hc1, hc2⟩ := h3 hP
          refine ⟨rfl, ?_⟩
          show cap + wc.length ≤ (buf ++ [p.val]).length + (wk.eraseIdx i).length
          rw [hlen, List.length_append]
          simp only [List.length_singleton]
          omega
        · intro hc; exact Bool.noConfusion hc
      · replace hC : wc = [] := hC
        replace hB : cap ≤ buf.length := hB
        rw [show (BoundedQueue.resumePush ⟨cap, buf, wc, wp, wk, false, ck⟩ i).1 =
            ⟨cap, buf, wc, wp ++ [⟨p.op, p.val, ck⟩], wk.eraseIdx i, false, ck + 1⟩ by
          simp [BoundedQueue.resumePush, hget, heq]]
        refine ⟨h1, fun hne => h2 hne, ?_, ?_⟩
        · intro _
          refine ⟨rfl, ?_⟩
          show cap + wc.length ≤ buf.length + (wk.eraseIdx i).length
          rw [hlen, hC]
          simp
          omega
        · intro hc; exact Bool.noConfusion hc

theorem qinv_next {T : Type} (s : BoundedQueue T) (op : Nat) (h : QInv s) :
    QInv (s.nextInternal op).1 := by
  obtain ⟨h1, h2, h3, h4⟩ := h
  rw [nextInternal_phases]
  rcases hP : s.waitingProducers with _ | ⟨p, ps⟩
  · rw [wakeOne_nil s hP]
    rcases hB : s.buffer with _ | ⟨v, rest⟩
    · by_cases hcl : s.closed = true
      · rw [nextCore_eos s op hB hcl]
        exact ⟨h1, h2, h3, h4⟩
      · rw [nextCore_reg s op hB (by simpa using hcl)]
        refine ⟨by simp [hB], ?_, ?_, ?_⟩
        · intro _; simp [hB]
        · intro hne; simp [hP] at hne
        · intro hc; exact absurd hc hcl
    · rw [nextCore_pop s op v rest hB]
      refine ⟨?_, ?_, ?_, ?_⟩
      · simp [hB] at h1; simp; omega
      · intro hne
        exact absurd (h2 hne) (by rw [hB]; simp)
      · intro hne; simp [hP] at hne
      · intro hc
        exact ⟨hP, (h4 hc).2⟩
  · obtain ⟨hcl, hcnt⟩ := h3 (by rw [hP]; simp)
    rw [wakeOne_cons s p ps hP]
    set s1 : BoundedQueue T :=
      { s with waitingProducers := ps, woken := s.woken ++ [p] } with hs1
    rcases hB : s.buffer with _ | ⟨v, rest⟩
    · rw [nextCore_reg s1 op (by simp [hs1, hB]) (by simp [hs1, hcl])]
      refine ⟨?_, ?_, ?_, ?_⟩
      · simp [hs1, hB]
      · intro _; simp [hs1, hB]
      · intro hne
        refine ⟨by simp [hs1, hcl], ?_⟩
        rw [hB] at hcnt
        simp at hcnt
        simp [hs1]
        omega
      · intro hc; simp [hs1] at hc; exact absurd hc (by simp [hcl])
    · rw [nextCore_pop s1 op v rest (by simp [hs1, hB])]
      refine ⟨?_, ?_, ?_, ?_⟩
      · rw [hB] at h1; simp at h1; simp [hs1]; omega
      · intro hne
        simp [hs1] at hne
        exact absurd (h2 hne) (by rw [hB]; simp)
      · intro hne
        refine ⟨by simp [hs1, hcl], ?_⟩
        rw [hB] at hcnt
        simp at hcnt
        simp [hs1]
        omega
      · intro hc; simp [hs1] at hc; exact absurd hc (by simp [hcl])

theorem qinv_close {T : Type} (s : BoundedQueue T) (h : QInv s) : QInv (s.close).1 := by
  obtain ⟨h1, h2, h3, h4⟩ := h
  by_cases hcl : s.closed = true
  · simpa [BoundedQueue.close, hcl] using ⟨h1, h2, h3, h4⟩
  · rw [show (s.close).1 =
        { s with closed := true, waitingConsumers := [], waitingProducers := [],
                 woken := s.woken ++ s.waitingProducers } by
      simp [BoundedQueue.close, hcl]]
    refine ⟨h1, by simp, by simp, by simp⟩

theorem qinv_step {T : Type} (s : BoundedQueue T) (st : QStep T) (h : QInv s) :
    QInv (qStep s st).1 := by
  cases st with
  | tryPush v => exact qinv_tryPush s v h
  | push op v => exact qinv_push s op v h
  | resumePush i => exact qinv_resumePush s i h
  | next op => exact qinv_next s op h
  | close => exact qinv_close s h

theorem qinv_run {T : Type} (script : List (QStep T)) :
    ∀ s : BoundedQueue T, QInv s → QInv (qRun s script).1 := by
  induction script with
  | nil => intro s h; exact h
  | cons st rest ih =>
    intro s h
    rw [qRun_state_cons]
    exact ih _ (qinv_step s st h)

theorem qinv_init {T : Type} (c : Nat) : QInv (initQ T c) := by
  refine ⟨by simp [initQ], by simp [initQ], by simp [initQ], by simp [initQ]⟩


/-! ## Claims C4, C5, C6: queue invariants, closure, FIFO of tryPush -/

theorem qRun_cons {T : Type} (s : BoundedQueue T) (st : QStep T) (rest : List (QStep T)) :
    qRun s (st :: rest) =
      ((qRun (qStep s st).1 rest).1, (qStep s st).2 ++ (qRun (qStep s st).1 rest).2) := rfl

theorem qRun_append_trace {T : Type} (s : BoundedQueue T) (a b : List (QStep T)) :
    (qRun s (a ++ b)).2 = (qRun s a).2 ++ (qRun (qRun s a).1 b).2 := by
  rw [qRun_append]

theorem nextInternal_closed_empty {T : Type} (s : BoundedQueue T) (op : Nat)
    (hP : s.waitingProducers = []) (hB : s.buffer = []) (hcl : s.closed = true) :
    s.nextInternal op = (s, [QEvent.nextImmediate op none]) := by
  simp [BoundedQueue.nextInternal, BoundedQueue.wakeOneProducer, BoundedQueue.nextCore,
    hP, hB, hcl]

theorem nextInternal_pop_noP {T : Type} (s : BoundedQueue T) (op : Nat) (v : T) (br : List T)
    (hP : s.waitingProducers = []) (hB : s.buffer = v :: br) :
    s.nextInternal op = ({ s with buffer := br }, [QEvent.nextImmediate op (some v)]) := by
  simp [BoundedQueue.nextInternal, BoundedQueue.wakeOneProducer, BoundedQueue.nextCore,
    hP, hB]

/-- C4 counterexample: capacity 1, one buffered value, two producers
suspend; a single `next()` wakes the first producer and pops the buffer.
Now the second producer is still pending while the buffer is empty —
the buffer is *not* at capacity. -/
theorem c4_counterexample : ¬ c4AsStated := by
  intro h
  have hx := (h 1 [.tryPush 10, .push 1 11, .push 2 12, .next 3] (by decide)).2.2 (by decide)
  exact absurd hx.2 (by decide)

/-- C4 (amended): in every reachable state of a queue of positive
capacity, the buffer never exceeds the capacity; a pending consumer
implies an empty buffer; and a pending producer implies that the queue
is open and that the buffer *plus the producers already woken but not
yet resumed* cover the capacity (a `next()` hands the freed slot to the
woken producer before the buffer refills). -/
theorem c4_invariants (T : Type) (c : Nat) (script : List (QStep T)) (_hc : 0 < c) :
    (finalQ T c script).buffer.length ≤ (finalQ T c script).capacity ∧
    ((finalQ T c script).waitingConsumers ≠ [] → (finalQ T c script).buffer = []) ∧
    ((finalQ T c script).waitingProducers ≠ [] →
      (finalQ T c script).closed = false ∧
      (finalQ T c script).capacity ≤
        (finalQ T c script).buffer.length + (finalQ T c script).woken.length) := by
  simp only [finalQ]
  obtain ⟨h1, h2, h3, h4⟩ := qinv_run script (initQ T c) (qinv_init c)
  exact ⟨h1, h2, fun hP => ⟨(h3 hP).1, by have := (h3 hP).2; omega⟩⟩

/-- Witness for C4 (amended) at capacity 1 with the counterexample
script of the unamended claim. -/
theorem c4_witness :
    (finalQ Nat 1 [.tryPush 10, .push 1 11, .push 2 12, .next 3]).closed = false ∧
    (finalQ Nat 1 [.tryPush 10, .push 1 11, .push 2 12, .next 3]).capacity ≤
      (finalQ Nat 1 [.tryPush 10, .push 1 11, .push 2 12, .next 3]).buffer.length +
      (finalQ Nat 1 [.tryPush 10, .push 1 11, .push 2 12, .next 3]).woken.length :=
  (c4_invariants Nat 1 [.tryPush 10, .push 1 11, .push 2 12, .next 3] (by decide)).2.2
    (by decide)

/-- Repeated dequeues on a closed queue with no waiting producers:
the remaining buffered values are returned in order, then every further
dequeue reports end-of-stream. -/
theorem drain_closed {T : Type} (cids : List Nat) :
    ∀ s : BoundedQueue T, s.closed = true → s.waitingProducers = [] →
    (qRun s (cids.map QStep.next)).2 =
      (cids.zip (s.buffer.map some ++
          List.replicate (cids.length - s.buffer.length) (none : Option T))).map
        (fun cr => QEvent.nextImmediate cr.1 cr.2) := by
  induction cids with
  | nil => intro s _ _; simp [qRun]
  | cons c0 rest ih =>
    intro s hcl hP
    rw [List.map_cons, qRun_trace_cons]
    rcases hB : s.buffer with _ | ⟨v, br⟩
    · rw [show qStep s (QStep.next c0) = (s, [QEvent.nextImmediate c0 none]) from
        nextInternal_closed_empty s c0 hP hB hcl]
      rw [ih s hcl hP]
      simp [hB, List.replicate_succ]
    · rw [show qStep s (QStep.next c0) =
          ({ s with buffer := br }, [QEvent.nextImmediate c0 (some v)]) from
        nextInternal_pop_noP s c0 v br hP hB]
      rw [ih { s with buffer := br } hcl hP]
      simp [hB, Nat.succ_sub_succ]

/-- C5: once closed (in any reachable closed state): `tryPush` and
`push` return `false` without enqueuing and without touching the state;
the retry of a woken producer completes with `false`, removing it from
the woken set only; and dequeues drain the remaining buffered values in
order, after which every further dequeue reports end-of-stream,
forever. -/
theorem c5_closed_behaviour {T : Type} (s : BoundedQueue T) (hInv : QInv s)
    (hcl : s.closed = true) :
    (∀ v, s.tryPush v = (s, [QEvent.tryPushed false])) ∧
    (∀ op v, s.push op v = (s, [QEvent.pushImmediate op false])) ∧
    (∀ i p, s.woken[i]? = some p →
      s.resumePush i = ({ s with woken := s.woken.eraseIdx i },
        [QEvent.pushCompleted p.op p.seq false])) ∧
    (∀ cids : List Nat,
      (qRun s (cids.map QStep.next)).2 =
        (cids.zip (s.buffer.map some ++
            List.replicate (cids.length - s.buffer.length) (none : Option T))).map
          (fun cr => QEvent.nextImmediate cr.1 cr.2)) := by
  refine ⟨?_, ?_, ?_, ?_⟩
  · intro v; simp [BoundedQueue.tryPush, hcl]
  · intro op v; simp [BoundedQueue.push, hcl]
  · intro i p hget; simp [BoundedQueue.resumePush, hget, hcl]
  · intro cids
    exact drain_closed cids s hcl (hInv.2.2.2 hcl).1

/-- Witness for C5 on a concrete closed queue holding one value. -/
theorem c5_witness :
    (⟨2, [5], [], [], [], true, 3⟩ : BoundedQueue Nat).tryPush 9 =
      (⟨2, [5], [], [], [], true, 3⟩, [QEvent.tryPushed false]) ∧
    (qRun (⟨2, [5], [], [], [], true, 3⟩ : BoundedQueue Nat)
        ([8, 9].map QStep.next)).2 =
      [QEvent.nextImmediate 8 (some 5), QEvent.nextImmediate 9 none] :=
  ⟨(c5_closed_behaviour ⟨2, [5], [], [], [], true, 3⟩ (by decide) rfl).1 9,
   by
    have hd := (c5_closed_behaviour (⟨2, [5], [], [], [], true, 3⟩ : BoundedQueue Nat)
      (by decide) rfl).2.2.2 [8, 9]
    simpa using hd⟩

/-- A run of `tryPush` steps on an open queue with no waiting consumer
and enough room: every push succeeds and the values are appended to the
buffer in order. -/
theorem tryPush_fill {T : Type} (vs : List T) :
    ∀ s : BoundedQueue T, s.closed = false → s.waitingConsumers = [] →
    s.buffer.length + vs.length ≤ s.capacity →
    qRun s (vs.map QStep.tryPush) =
      ({ s with buffer := s.buffer ++ vs }, vs.map (fun _ => QEvent.tryPushed true)) := by
  induction vs with
  | nil => intro s _ _ _; simp [qRun]
  | cons v vr ih =>
    intro s hcl hC hlen
    simp only [List.length_cons] at hlen
    rw [List.map_cons, qRun_cons]
    rw [show qStep s (QStep.tryPush v) =
        ({ s with buffer := s.buffer ++ [v] }, [QEvent.tryPushed true]) by
      simp [qStep, BoundedQueue.tryPush, BoundedQueue.tryPushIntrenal, hcl, hC,
        show s.buffer.length < s.capacity by omega]]
    rw [ih { s with buffer := s.buffer ++ [v] } hcl hC
      (by simp only [List.length_append, List.length_singleton]; omega)]
    simp

/-- Dequeues against a buffer holding exactly the expected values, with
no waiting producer: each dequeue pops the oldest value. -/
theorem drain_values {T : Type} (vs : List T) :
    ∀ (cids : List Nat) (s : BoundedQueue T), s.waitingProducers = [] → s.buffer = vs →
    cids.length = vs.length →
    (qRun s (cids.map QStep.next)).2 =
      (cids.zip (vs.map some)).map (fun cr => QEvent.nextImmediate cr.1 cr.2) := by
  induction vs with
  | nil =>
    intro cids s _ _ hlen
    rw [List.length_eq_zero.1 hlen]
    simp [qRun]
  | cons v vr ih =>
    intro cids s hP hB hlen
    cases cids with
    | nil => simp at hlen
    | cons c0 cr =>
      rw [List.map_cons, qRun_trace_cons]
      rw [show qStep s (QStep.next c0) =
          ({ s with buffer := vr }, [QEvent.nextImmediate c0 (some v)]) from
        nextInternal_pop_noP s c0 v vr hP hB]
      rw [ih cr { s with buffer := vr } hP rfl (by simpa using hlen)]
      simp

/-- C6: on a fresh queue of capacity `c`, a sequence of `N ≤ c`
`tryPush` calls with no consumer waiting all succeed, and the following
`N` dequeues return exactly those values in push order. -/
theorem c6_tryPush_order {T : Type} (c : Nat) (vs : List T) (cids : List Nat)
    (_hc : 0 < c) (hlen : vs.length ≤ c) (hcid : cids.length = vs.length) :
    (qRun (initQ T c) (vs.map QStep.tryPush ++ cids.map QStep.next)).2 =
      vs.map (fun _ => QEvent.tryPushed true) ++
      (cids.zip (vs.map some)).map (fun cr => QEvent.nextImmediate cr.1 cr.2) := by
  rw [qRun_append_trace]
  rw [tryPush_fill vs (initQ T c) rfl rfl (by simpa [initQ] using hlen)]
  rw [drain_values vs cids { initQ T c with buffer := (initQ T c).buffer ++ vs } rfl
    (by simp [initQ]) hcid]

/-- Witness for C6 at capacity 3 with values 1,2,3. -/
theorem c6_witness :
    (qRun (initQ Nat 3) ([1, 2, 3].map QStep.tryPush ++ [7, 8, 9].map QStep.next)).2 =
      [QEvent.tryPushed true, QEvent.tryPushed true, QEvent.tryPushed true,
       QEvent.nextImmediate 7 (some 1), QEvent.nextImmediate 8 (some 2),
       QEvent.nextImmediate 9 (some 3)] := by
  have h := c6_tryPush_order 3 [1, 2, 3] [7, 8, 9] (by decide) (by decide) (by decide)
  simpa using h


/-! ## Claim C9: service order -/

theorem sorted_head_all (q : Nat) (rest : List Nat)
    (h : (q :: rest).Pairwise (· < ·)) :
    (q :: rest).all (fun x => Nat.ble q x) = true := by
  rw [List.all_eq_true]
  intro x hx
  have : q ≤ x := by
    rcases List.mem_cons.1 hx with h1 | h1
    · exact Nat.le_of_eq h1.symm
    · exact Nat.le_of_lt ((List.pairwise_cons.1 h).1 x h1)
  simpa [Nat.ble_eq] using this

theorem fifoCheck_append {T : Type} (reg serve : QEvent T → Option Nat) (a : List (QEvent T)) :
    ∀ (b : List (QEvent T)) (pend : List Nat),
    fifoCheck reg serve (a ++ b) pend =
      (fifoCheck reg serve a pend && fifoCheck reg serve b (fifoPend reg serve a pend)) := by
  induction a with
  | nil => intro b pend; simp [fifoCheck, fifoPend]
  | cons e rest ih =>
    intro b pend
    rw [List.cons_append]
    cases hr : reg e with
    | some q =>
      simp only [fifoCheck, fifoPend, hr]
      exact ih b (pend ++ [q])
    | none =>
      cases hs : serve e with
      | some q =>
        simp only [fifoCheck, fifoPend, hr, hs]
        rw [ih b (pend.erase q), Bool.and_assoc]
      | none =>
        simp only [fifoCheck, fifoPend, hr, hs]
        exact ih b pend

theorem fifoCheck_skips {T : Type} (reg serve : QEvent T → Option Nat) (evs : List (QEvent T))
    (h : ∀ e ∈ evs, reg e = none ∧ serve e = none) :
    ∀ pend, fifoCheck reg serve evs pend = true ∧ fifoPend reg serve evs pend = pend := by
  induction evs with
  | nil => intro pend; exact ⟨rfl, rfl⟩
  | cons e rest ih =>
    intro pend
    obtain ⟨hr, hs⟩ := h e (List.mem_cons_self _ _)
    have ih2 := ih (fun x hx => h x (List.mem_cons_of_mem _ hx)) pend
    constructor
    · simp only [fifoCheck, hr, hs]
      exact ih2.1
    · simp only [fifoPend, hr, hs]
      exact ih2.2

theorem fifoCheck_serve_head {T : Type} (reg serve : QEvent T → Option Nat) (e : QEvent T)
    (q : Nat) (rest : List Nat) (hr : reg e = none) (hs : serve e = some q)
    (hsort : (q :: rest).Pairwise (· < ·)) (evs : List (QEvent T)) :
    (fifoCheck reg serve (e :: evs) (q :: rest) = fifoCheck reg serve evs rest) ∧
    (fifoPend reg serve (e :: evs) (q :: rest) = fifoPend reg serve evs rest) := by
  have hall := sorted_head_all q rest hsort
  constructor
  · simp only [fifoCheck, hr, hs, List.erase_cons_head, hall, Bool.true_and]
  · simp only [fifoPend, hr, hs, List.erase_cons_head]

theorem fifoCheck_reg_head {T : Type} (reg serve : QEvent T → Option Nat) (e : QEvent T)
    (q : Nat) (hr : reg e = some q) (evs : List (QEvent T)) (pend : List Nat) :
    fifoCheck reg serve (e :: evs) pend = fifoCheck reg serve evs (pend ++ [q]) ∧
    fifoPend reg serve (e :: evs) pend = fifoPend reg serve evs (pend ++ [q]) := by
  constructor <;> simp only [fifoCheck, fifoPend, hr]

theorem consCheck_drain {T : Type} (wc : List (Nat × Nat)) :
    (wc.map Prod.snd).Pairwise (· < ·) →
    fifoCheck (T := T) regCevt serveCevt (wc.map (fun c => QEvent.resolvedC c.1 c.2 none))
        (wc.map Prod.snd) = true ∧
    fifoPend (T := T) regCevt serveCevt (wc.map (fun c => QEvent.resolvedC c.1 c.2 none))
        (wc.map Prod.snd) = [] := by
  induction wc with
  | nil => intro _; exact ⟨rfl, rfl⟩
  | cons c cs ih =>
    intro hsort
    simp only [List.map_cons] at hsort ⊢
    obtain ⟨ih1, ih2⟩ := ih (List.pairwise_cons.1 hsort).2
    have hh := fifoCheck_serve_head (T := T) regCevt serveCevt
      (QEvent.resolvedC c.1 c.2 none) c.2 (cs.map Prod.snd) rfl rfl hsort
      (cs.map (fun x => QEvent.resolvedC x.1 x.2 none))
    exact ⟨hh.1.trans ih1, hh.2.trans ih2⟩

theorem prodCheck_drain {T : Type} (wp : List (PReq T)) :
    (wp.map PReq.seq).Pairwise (· < ·) →
    fifoCheck (T := T) regPevt servePevt (wp.map (fun p => QEvent.wokeP p.op p.seq))
        (wp.map PReq.seq) = true ∧
    fifoPend (T := T) regPevt servePevt (wp.map (fun p => QEvent.wokeP p.op p.seq))
        (wp.map PReq.seq) = [] := by
  induction wp with
  | nil => intro _; exact ⟨rfl, rfl⟩
  | cons p ps ih =>
    intro hsort
    simp only [List.map_cons] at hsort ⊢
    obtain ⟨ih1, ih2⟩ := ih (List.pairwise_cons.1 hsort).2
    have hh := fifoCheck_serve_head (T := T) regPevt servePevt
      (QEvent.wokeP p.op p.seq) p.seq (ps.map PReq.seq) rfl rfl hsort
      (ps.map (fun x => QEvent.wokeP x.op x.seq))
    exact ⟨hh.1.trans ih1, hh.2.trans ih2⟩


/-- A step whose events touch no waiter queue and whose state keeps the
waiter lists and the clock. -/
theorem fifo_step_triv {T : Type} (s s' : BoundedQueue T) (evs : List (QEvent T))
    (hC : consSeqs s' = consSeqs s) (hP : prodSeqs s' = prodSeqs s) (hck : s'.clock = s.clock)
    (hskip : ∀ e ∈ evs,
      (regCevt e = none ∧ serveCevt e = none) ∧ (regPevt e = none ∧ servePevt e = none))
    (h : SeqSorted s) :
    SeqSorted s' ∧
    fifoCheck regCevt serveCevt evs (consSeqs s) = true ∧
    fifoPend regCevt serveCevt evs (consSeqs s) = consSeqs s' ∧
    fifoCheck regPevt servePevt evs (prodSeqs s) = true ∧
    fifoPend regPevt servePevt evs (prodSeqs s) = prodSeqs s' := by
  obtain ⟨h1, h2, h3, h4⟩ := h
  have hc := fifoCheck_skips regCevt serveCevt evs (fun e he => (hskip e he).1) (consSeqs s)
  have hp := fifoCheck_skips regPevt servePevt evs (fun e he => (hskip e he).2) (prodSeqs s)
  refine ⟨⟨hC ▸ h1, ?_, hP ▸ h3, ?_⟩, hc.1, hc.2.trans hC.symm, hp.1, hp.2.trans hP.symm⟩
  · intro q hq; rw [hck]; exact h2 q (hC ▸ hq)
  · intro q hq; rw [hck]; exact h4 q (hP ▸ hq)

/-- A step that resolves the oldest waiting consumer (events: the
resolution plus one neutral event). -/
theorem fifo_step_resolve {T : Type} (s s' : BoundedQueue T) (c : Nat × Nat)
    (cs : List (Nat × Nat)) (e1 e2 : QEvent T)
    (hC : s.waitingConsumers = c :: cs) (hC' : s'.waitingConsumers = cs)
    (hPP : prodSeqs s' = prodSeqs s) (hck : s'.clock = s.clock)
    (he1r : regCevt e1 = none) (he1s : serveCevt e1 = some c.2)
    (he1p : regPevt e1 = none ∧ servePevt e1 = none)
    (he2 : (regCevt e2 = none ∧ serveCevt e2 = none) ∧
           (regPevt e2 = none ∧ servePevt e2 = none))
    (h : SeqSorted s) :
    SeqSorted s' ∧
    fifoCheck regCevt serveCevt [e1, e2] (consSeqs s) = true ∧
    fifoPend regCevt serveCevt [e1, e2] (consSeqs s) = consSeqs s' ∧
    fifoCheck regPevt servePevt [e1, e2] (prodSeqs s) = true ∧
    fifoPend regPevt servePevt [e1, e2] (prodSeqs s) = prodSeqs s' := by
  obtain ⟨h1, h2, h3, h4⟩ := h
  have hcons : consSeqs s = c.2 :: cs.map Prod.snd := by simp [consSeqs, hC]
  have hcons' : consSeqs s' = cs.map Prod.snd := by simp [consSeqs, hC']
  have hsort : (c.2 :: cs.map Prod.snd).Pairwise (· < ·) := hcons ▸ h1
  have hh := fifoCheck_serve_head regCevt serveCevt e1 c.2 (cs.map Prod.snd)
    he1r he1s hsort [e2]
  have hsk := fifoCheck_skips regCevt serveCevt [e2] (fun e he => by
    rcases List.mem_singleton.1 he with rfl; exact he2.1) (cs.map Prod.snd)
  have hskp := fifoCheck_skips regPevt servePevt [e1, e2] (fun e he => by
    rcases List.mem_cons.1 he with rfl | he
    · exact ⟨he1p.1, he1p.2⟩
    · rcases List.mem_singleton.1 he with rfl; exact he2.2) (prodSeqs s)
  refine ⟨⟨?_, ?_, hPP ▸ h3, ?_⟩, ?_, ?_, hskp.1, hskp.2.trans hPP.symm⟩
  · rw [hcons']; exact (List.pairwise_cons.1 hsort).2
  · intro q hq
    rw [hck]
    exact h2 q (by rw [hcons]; exact List.mem_cons_of_mem _ (hcons' ▸ hq))
  · intro q hq; rw [hck]; exact h4 q (hPP ▸ hq)
  · rw [hcons]; exact hh.1.trans hsk.1
  · rw [hcons, hcons']; exact hh.2.trans hsk.2

/-- A step that registers a new producer with the current clock. -/
theorem fifo_step_regP {T : Type} (s s' : BoundedQueue T) (e1 : QEvent T)
    (hC' : consSeqs s' = consSeqs s)
    (hP' : prodSeqs s' = prodSeqs s ++ [s.clock]) (hck : s'.clock = s.clock + 1)
    (he1r : regPevt e1 = some s.clock) (he1sp : servePevt e1 = none)
    (he1c : regCevt e1 = none ∧ serveCevt e1 = none)
    (h : SeqSorted s) :
    SeqSorted s' ∧
    fifoCheck regCevt serveCevt [e1] (consSeqs s) = true ∧
    fifoPend regCevt serveCevt [e1] (consSeqs s) = consSeqs s' ∧
    fifoCheck regPevt servePevt [e1] (prodSeqs s) = true ∧
    fifoPend regPevt servePevt [e1] (prodSeqs s) = prodSeqs s' := by
  obtain ⟨h1, h2, h3, h4⟩ := h
  have hsk := fifoCheck_skips regCevt serveCevt [e1] (fun e he => by
    rcases List.mem_singleton.1 he with rfl; exact he1c) (consSeqs s)
  have hr := fifoCheck_reg_head regPevt servePevt e1 s.clock he1r [] (prodSeqs s)
  refine ⟨⟨hC' ▸ h1, ?_, ?_, ?_⟩, hsk.1, hsk.2.trans hC'.symm, hr.1.trans rfl,
    hr.2.trans hP'.symm⟩
  · intro q hq; rw [hck]; exact Nat.lt_succ_of_lt (h2 q (hC' ▸ hq))
  · rw [hP', List.pairwise_append]
    refine ⟨h3, by simp, ?_⟩
    intro a ha b hb
    rw [List.mem_singleton.1 hb]
    exact h4 a ha
  · intro q hq
    rw [hP'] at hq
    rw [hck]
    rcases List.mem_append.1 hq with hq | hq
    · exact Nat.lt_succ_of_lt (h4 q hq)
    · rw [List.mem_singleton.1 hq]; exact Nat.lt_succ_self _

/-- A step that registers a new consumer with the current clock. -/
theorem fifo_step_regC {T : Type} (s s' : BoundedQueue T) (e1 : QEvent T)
    (hC' : consSeqs s' = consSeqs s ++ [s.clock])
    (hP' : prodSeqs s' = prodSeqs s) (hck : s'.clock = s.clock + 1)
    (he1r : regCevt e1 = some s.clock) (he1sc : serveCevt e1 = none)
    (he1p : regPevt e1 = none ∧ servePevt e1 = none)
    (h : SeqSorted s) :
    SeqSorted s' ∧
    fifoCheck regCevt serveCevt [e1] (consSeqs s) = true ∧
    fifoPend regCevt serveCevt [e1] (consSeqs s) = consSeqs s' ∧
    fifoCheck regPevt servePevt [e1] (prodSeqs s) = true ∧
    fifoPend regPevt servePevt [e1] (prodSeqs s) = prodSeqs s' := by
  obtain ⟨h1, h2, h3, h4⟩ := h
  have hsk := fifoCheck_skips regPevt servePevt [e1] (fun e he => by
    rcases List.mem_singleton.1 he with rfl; exact he1p) (prodSeqs s)
  have hr := fifoCheck_reg_head regCevt serveCevt e1 s.clock he1r [] (consSeqs s)
  refine ⟨⟨?_, ?_, hP' ▸ h3, ?_⟩, hr.1.trans rfl, hr.2.trans hC'.symm, hsk.1,
    hsk.2.trans hP'.symm⟩
  · rw [hC', List.pairwise_append]
    refine ⟨h1, by simp, ?_⟩
    intro a ha b hb
    rw [List.mem_singleton.1 hb]
    exact h2 a ha
  · intro q hq
    rw [hC'] at hq
    rw [hck]
    rcases List.mem_append.1 hq with hq | hq
    · exact Nat.lt_succ_of_lt (h2 q hq)
    · rw [List.mem_singleton.1 hq]; exact Nat.lt_succ_self _
  · intro q hq; rw [hck]; exact Nat.lt_succ_of_lt (h4 q (hP' ▸ hq))

/-- A step that wakes the oldest waiting producer (events: the wake plus
one neutral event). -/
theorem fifo_step_serveP {T : Type} (s s' : BoundedQueue T) (p : PReq T)
    (ps : List (PReq T)) (e1 e2 : QEvent T)
    (hP : s.waitingProducers = p :: ps) (hP' : s'.waitingProducers = ps)
    (hCC : consSeqs s' = consSeqs s) (hck : s'.clock = s.clock)
    (he1r : regPevt e1 = none) (he1s : servePevt e1 = some p.seq)
    (he1c : regCevt e1 = none ∧ serveCevt e1 = none)
    (he2 : (regCevt e2 = none ∧ serveCevt e2 = none) ∧
           (regPevt e2 = none ∧ servePevt e2 = none))
    (h : SeqSorted s) :
    SeqSorted s' ∧
    fifoCheck regCevt serveCevt [e1, e2] (consSeqs s) = true ∧
    fifoPend regCevt serveCevt [e1, e2] (consSeqs s) = consSeqs s' ∧
    fifoCheck regPevt servePevt [e1, e2] (prodSeqs s) = true ∧
    fifoPend regPevt servePevt [e1, e2] (prodSeqs s) = prodSeqs s' := by
  obtain ⟨h1, h2, h3, h4⟩ := h
  have hprod : prodSeqs s = p.seq :: ps.map PReq.seq := by simp [prodSeqs, hP]
  have hprod' : prodSeqs s' = ps.map PReq.seq := by simp [prodSeqs, hP']
  have hsort : (p.seq :: ps.map PReq.seq).Pairwise (· < ·) := hprod ▸ h3
  have hh := fifoCheck_serve_head regPevt servePevt e1 p.seq (ps.map PReq.seq)
    he1r he1s hsort [e2]
  have hsk := fifoCheck_skips regPevt servePevt [e2] (fun e he => by
    rcases List.mem_singleton.1 he with rfl; exact he2.2) (ps.map PReq.seq)
  have hskc := fifoCheck_skips regCevt serveCevt [e1, e2] (fun e he => by
    rcases List.mem_cons.1 he with rfl | he
    · exact he1c
    · rcases List.mem_singleton.1 he with rfl; exact he2.1) (consSeqs s)
  refine ⟨⟨hCC ▸ h1, ?_, ?_, ?_⟩, hskc.1, hskc.2.trans hCC.symm, ?_, ?_⟩
  · intro q hq; rw [hck]; exact h2 q (hCC ▸ hq)
  · rw [hprod']; exact (List.pairwise_cons.1 hsort).2
  · intro q hq
    rw [hck]
    exact h4 q (by rw [hprod]; exact List.mem_cons_of_mem _ (hprod' ▸ hq))
  · rw [hprod]; exact hh.1.trans hsk.1
  · rw [hprod, hprod']; exact hh.2.trans hsk.2

/-- A `next` that wakes a producer and then registers as consumer
(events: the wake plus the consumer registration). -/
theorem fifo_step_wake_reg {T : Type} (s s' : BoundedQueue T) (p : PReq T)
    (ps : List (PReq T)) (e1 e2 : QEvent T)
    (hP : s.waitingProducers = p :: ps) (hP' : s'.waitingProducers = ps)
    (hC' : consSeqs s' = consSeqs s ++ [s.clock]) (hck : s'.clock = s.clock + 1)
    (he1r : regPevt e1 = none) (he1s : servePevt e1 = some p.seq)
    (he1c : regCevt e1 = none ∧ serveCevt e1 = none)
    (he2r : regCevt e2 = some s.clock) (he2sc : serveCevt e2 = none)
    (he2p : regPevt e2 = none ∧ servePevt e2 = none)
    (h : SeqSorted s) :
    SeqSorted s' ∧
    fifoCheck regCevt serveCevt [e1, e2] (consSeqs s) = true ∧
    fifoPend regCevt serveCevt [e1, e2] (consSeqs s) = consSeqs s' ∧
    fifoCheck regPevt servePevt [e1, e2] (prodSeqs s) = true ∧
    fifoPend regPevt servePevt [e1, e2] (prodSeqs s) = prodSeqs s' := by
  obtain ⟨h1, h2, h3, h4⟩ := h
  have hprod : prodSeqs s = p.seq :: ps.map PReq.seq := by simp [prodSeqs, hP]
  have hprod' : prodSeqs s' = ps.map PReq.seq := by simp [prodSeqs, hP']
  have hsort : (p.seq :: ps.map PReq.seq).Pairwise (· < ·) := hprod ▸ h3
  have hh := fifoCheck_serve_head regPevt servePevt e1 p.seq (ps.map PReq.seq)
    he1r he1s hsort [e2]
  have hsk := fifoCheck_skips regPevt servePevt [e2] (fun e he => by
    rcases List.mem_singleton.1 he with rfl; exact he2p) (ps.map PReq.seq)
  have hske1 := fifoCheck_skips regCevt serveCevt [e1] (fun e he => by
    rcases List.mem_singleton.1 he with rfl; exact he1c) (consSeqs s)
  refine ⟨⟨?_, ?_, ?_, ?_⟩, ?_, ?_, ?_, ?_⟩
  · rw [hC', List.pairwise_append]
    refine ⟨h1, by simp, ?_⟩
    intro a ha b hb
    rw [List.mem_singleton.1 hb]
    exact h2 a ha
  · intro q hq
    rw [hC'] at hq
    rw [hck]
    rcases List.mem_append.1 hq with hq | hq
    · exact Nat.lt_succ_of_lt (h2 q hq)
    · rw [List.mem_singleton.1 hq]; exact Nat.lt_succ_self _
  · rw [hprod']; exact (List.pairwise_cons.1 hsort).2
  · intro q hq
    rw [hck]
    refine Nat.lt_succ_of_lt (h4 q ?_)
    rw [hprod]
    exact List.mem_cons_of_mem _ (hprod' ▸ hq)
  · show fifoCheck regCevt serveCevt (e1 :: [e2]) (consSeqs s) = true
    have h1step : fifoCheck regCevt serveCevt (e1 :: [e2]) (consSeqs s) =
        fifoCheck regCevt serveCevt [e2] (consSeqs s) := by
      simp only [fifoCheck, he1c.1, he1c.2]
    rw [h1step]
    exact (fifoCheck_reg_head regCevt serveCevt e2 s.clock he2r [] (consSeqs s)).1.trans rfl
  · have h1step : fifoPend regCevt serveCevt (e1 :: [e2]) (consSeqs s) =
        fifoPend regCevt serveCevt [e2] (consSeqs s) := by
      simp only [fifoPend, he1c.1, he1c.2]
    rw [h1step]
    exact (fifoCheck_reg_head regCevt serveCevt e2 s.clock he2r [] (consSeqs s)).2.trans
      hC'.symm
  · rw [hprod]; exact hh.1.trans hsk.1
  · rw [hprod, hprod']; exact hh.2.trans hsk.2


/-- One scheduler step preserves `SeqSorted`, and its events pass both
FIFO checkers, evolving the pending sets to the new waiter lists. -/
theorem fifo_step {T : Type} (s : BoundedQueue T) (st : QStep T) (h : SeqSorted s) :
    SeqSorted (qStep s st).1 ∧
    fifoCheck regCevt serveCevt (qStep s st).2 (consSeqs s) = true ∧
    fifoPend regCevt serveCevt (qStep s st).2 (consSeqs s) = consSeqs (qStep s st).1 ∧
    fifoCheck regPevt servePevt (qStep s st).2 (prodSeqs s) = true ∧
    fifoPend regPevt servePevt (qStep s st).2 (prodSeqs s) = prodSeqs (qStep s st).1 := by
  cases st with
  | tryPush v =>
    by_cases hcl : s.closed = true
    · rw [show qStep s (QStep.tryPush v) = (s, [QEvent.tryPushed false]) by
        simp [qStep, BoundedQueue.tryPush, hcl]]
      exact fifo_step_triv s s _ rfl rfl rfl
        (by intro e he; rcases List.mem_singleton.1 he with rfl; exact ⟨⟨rfl, rfl⟩, rfl, rfl⟩) h
    · rcases tpi_cases s v with ⟨c, cs, hC, heq⟩ | ⟨hC, hB, heq⟩ | ⟨hC, hB, heq⟩
      · rw [show qStep s (QStep.tryPush v) =
            ({ s with waitingConsumers := cs },
             [QEvent.resolvedC c.1 c.2 (some v), QEvent.tryPushed true]) by
          simp [qStep, BoundedQueue.tryPush, hcl, heq]]
        exact fifo_step_resolve s _ c cs _ _ hC rfl rfl rfl rfl rfl ⟨rfl, rfl⟩
          ⟨⟨rfl, rfl⟩, rfl, rfl⟩ h
      · rw [show qStep s (QStep.tryPush v) =
            ({ s with buffer := s.buffer ++ [v] }, [QEvent.tryPushed true]) by
          simp [qStep, BoundedQueue.tryPush, hcl, heq]]
        exact fifo_step_triv s _ _ rfl rfl rfl
          (by intro e he; rcases List.mem_singleton.1 he with rfl; exact ⟨⟨rfl, rfl⟩, rfl, rfl⟩) h
      · rw [show qStep s (QStep.tryPush v) = (s, [QEvent.tryPushed false]) by
          simp [qStep, BoundedQueue.tryPush, hcl, heq]]
        exact fifo_step_triv s s _ rfl rfl rfl
          (by intro e he; rcases List.mem_singleton.1 he with rfl; exact ⟨⟨rfl, rfl⟩, rfl, rfl⟩) h
  | push op v =>
    by_cases hcl : s.closed = true
    · rw [show qStep s (QStep.push op v) = (s, [QEvent.pushImmediate op false]) by
        simp [qStep, BoundedQueue.push, hcl]]
      exact fifo_step_triv s s _ rfl rfl rfl
        (by intro e he; rcases List.mem_singleton.1 he with rfl; exact ⟨⟨rfl, rfl⟩, rfl, rfl⟩) h
    · rcases tpi_cases s v with ⟨c, cs, hC, heq⟩ | ⟨hC, hB, heq⟩ | ⟨hC, hB, heq⟩
      · rw [show qStep s (QStep.push op v) =
            ({ s with waitingConsumers := cs },
             [QEvent.resolvedC c.1 c.2 (some v), QEvent.pushImmediate op true]) by
          simp [qStep, BoundedQueue.push, hcl, heq]]
        exact fifo_step_resolve s _ c cs _ _ hC rfl rfl rfl rfl rfl ⟨rfl, rfl⟩
          ⟨⟨rfl, rfl⟩, rfl, rfl⟩ h
      · rw [show qStep s (QStep.push op v) =
            ({ s with buffer := s.buffer ++ [v] }, [QEvent.pushImmediate op true]) by
          simp [qStep, BoundedQueue.push, hcl, heq]]
        exact fifo_step_triv s _ _ rfl rfl rfl
          (by intro e he; rcases List.mem_singleton.1 he with rfl; exact ⟨⟨rfl, rfl⟩, rfl, rfl⟩) h
      · rw [show qStep s (QStep.push op v) =
            ({ s with waitingProducers := s.waitingProducers ++ [⟨op, v, s.clock⟩],
                      clock := s.clock + 1 }, [QEvent.regP op s.clock]) by
          simp [qStep, BoundedQueue.push, hcl, heq]]
        exact fifo_step_regP s _ _ rfl (by simp [prodSeqs]) rfl rfl rfl ⟨rfl, rfl⟩ h
  | resumePush i =>
    rcases hget : s.woken[i]? with _ | p
    · rw [show qStep s (QStep.resumePush i) = (s, []) by
        simp [qStep, BoundedQueue.resumePush, hget]]
      exact fifo_step_triv s s _ rfl rfl rfl (by intro e he; exact absurd he (by simp)) h
    · by_cases hcl : s.closed = true
      · rw [show qStep s (QStep.resumePush i) =
            ({ s with woken := s.woken.eraseIdx i },
             [QEvent.pushCompleted p.op p.seq false]) by
          simp [qStep, BoundedQueue.resumePush, hget, hcl]]
        exact fifo_step_triv s _ _ rfl rfl rfl
          (by intro e he; rcases List.mem_singleton.1 he with rfl; exact ⟨⟨rfl, rfl⟩, rfl, rfl⟩) h
      · have hcl2 : s.closed = false := by simpa using hcl
        rcases tpi_cases { s with woken := s.woken.eraseIdx i } p.val with
          ⟨c, cs, hC, heq⟩ | ⟨hC, hB, heq⟩ | ⟨hC, hB, heq⟩
        · rw [hcl2] at heq
          rw [show qStep s (QStep.resumePush i) =
              ({ s with woken := s.woken.eraseIdx i, waitingConsumers := cs },
               [QEvent.resolvedC c.1 c.2 (some p.val),
                QEvent.pushCompleted p.op p.seq true]) by
            simp [qStep, BoundedQueue.resumePush, hget, hcl2, heq]]
          exact fifo_step_resolve s _ c cs _ _ hC rfl rfl rfl rfl rfl ⟨rfl, rfl⟩
            ⟨⟨rfl, rfl⟩, rfl, rfl⟩ h
        · rw [hcl2] at heq
          rw [show qStep s (QStep.resumePush i) =
              ({ s with woken := s.woken.eraseIdx i, buffer := s.buffer ++ [p.val] },
               [QEvent.pushCompleted p.op p.seq true]) by
            simp [qStep, BoundedQueue.resumePush, hget, hcl2, heq]]
          exact fifo_step_triv s _ _ rfl rfl rfl
            (by intro e he; rcases List.mem_singleton.1 he with rfl; exact ⟨⟨rfl, rfl⟩, rfl, rfl⟩) h
        · rw [hcl2] at heq
          rw [show qStep s (QStep.resumePush i) =
              ({ s with woken := s.woken.eraseIdx i,
                        waitingProducers := s.waitingProducers ++ [⟨p.op, p.val, s.clock⟩],
                        clock := s.clock + 1 }, [QEvent.regP p.op s.clock]) by
            simp [qStep, BoundedQueue.resumePush, hget, hcl2, heq]]
          exact fifo_step_regP s _ _ rfl (by simp [prodSeqs]) rfl rfl rfl ⟨rfl, rfl⟩ h
  | next op =>
    rcases hP : s.waitingProducers with _ | ⟨p, ps⟩
    · rcases hB : s.buffer with _ | ⟨v, rest⟩
      · by_cases hcl : s.closed = true
        · rw [show qStep s (QStep.next op) = (s, [QEvent.nextImmediate op none]) from
            nextInternal_closed_empty s op hP hB hcl]
          exact fifo_step_triv s s _ rfl rfl rfl
            (by intro e he; rcases List.mem_singleton.1 he with rfl; exact ⟨⟨rfl, rfl⟩, rfl, rfl⟩) h
        · have hcl2 : s.closed = false := by simpa using hcl
          rw [show qStep s (QStep.next op) =
              ({ s with waitingConsumers := s.waitingConsumers ++ [(op, s.clock)],
                        clock := s.clock + 1 }, [QEvent.regC op s.clock]) by
            simp [qStep, BoundedQueue.nextInternal, BoundedQueue.wakeOneProducer,
              BoundedQueue.nextCore, hP, hB, hcl2]]
          exact fifo_step_regC s _ _ (by simp [consSeqs]) rfl rfl rfl rfl ⟨rfl, rfl⟩ h
      · rw [show qStep s (QStep.next op) =
            ({ s with buffer := rest }, [QEvent.nextImmediate op (some v)]) from
          nextInternal_pop_noP s op v rest hP hB]
        exact fifo_step_triv s _ _ rfl rfl rfl
          (by intro e he; rcases List.mem_singleton.1 he with rfl; exact ⟨⟨rfl, rfl⟩, rfl, rfl⟩) h
    · rcases hB : s.buffer with _ | ⟨v, rest⟩
      · by_cases hcl : s.closed = true
        · rw [show qStep s (QStep.next op) =
              ({ s with waitingProducers := ps, woken := s.woken ++ [p] },
               [QEvent.wokeP p.op p.seq, QEvent.nextImmediate op none]) by
            simp [qStep, BoundedQueue.nextInternal, BoundedQueue.wakeOneProducer,
              BoundedQueue.nextCore, hP, hB, hcl]]
          exact fifo_step_serveP s _ p ps _ _ hP rfl rfl rfl rfl rfl ⟨rfl, rfl⟩
            ⟨⟨rfl, rfl⟩, rfl, rfl⟩ h
        · have hcl2 : s.closed = false := by simpa using hcl
          rw [show qStep s (QStep.next op) =
              ({ s with waitingProducers := ps, woken := s.woken ++ [p],
                        waitingConsumers := s.waitingConsumers ++ [(op, s.clock)],
                        clock := s.clock + 1 },
               [QEvent.wokeP p.op p.seq, QEvent.regC op s.clock]) by
            simp [qStep, BoundedQueue.nextInternal, BoundedQueue.wakeOneProducer,
              BoundedQueue.nextCore, hP, hB, hcl2]]
          exact fifo_step_wake_reg s _ p ps _ _ hP rfl (by simp [consSeqs]) rfl rfl rfl
            ⟨rfl, rfl⟩ rfl rfl ⟨rfl, rfl⟩ h
      · rw [show qStep s (QStep.next op) =
            ({ s with waitingProducers := ps, woken := s.woken ++ [p], buffer := rest },
             [QEvent.wokeP p.op p.seq, QEvent.nextImmediate op (some v)]) by
          simp [qStep, BoundedQueue.nextInternal, BoundedQueue.wakeOneProducer,
            BoundedQueue.nextCore, hP, hB]]
        exact fifo_step_serveP s _ p ps _ _ hP rfl rfl rfl rfl rfl ⟨rfl, rfl⟩
          ⟨⟨rfl, rfl⟩, rfl, rfl⟩ h
  | close =>
    by_cases hcl : s.closed = true
    · rw [show qStep s QStep.close = (s, []) by simp [qStep, BoundedQueue.close, hcl]]
      exact fifo_step_triv s s _ rfl rfl rfl (by intro e he; exact absurd he (by simp)) h
    · obtain ⟨h1, h2, h3, h4⟩ := h
      rw [show qStep s QStep.close =
          ({ s with closed := true, waitingConsumers := [], waitingProducers := [],
                    woken := s.woken ++ s.waitingProducers },
           QEvent.closedQ :: (s.waitingConsumers.map (fun c => QEvent.resolvedC c.1 c.2 none)
             ++ s.waitingProducers.map (fun p => QEvent.wokeP p.op p.seq))) by
        simp [qStep, BoundedQueue.close, hcl]]
      have hA := consCheck_drain (T := T) s.waitingConsumers h1
      have hAskip := fifoCheck_skips (T := T) regPevt servePevt
        (s.waitingConsumers.map (fun c => QEvent.resolvedC c.1 c.2 none))
        (by intro e he; obtain ⟨x, hx, rfl⟩ := List.mem_map.1 he; exact ⟨rfl, rfl⟩)
      have hBdrain := prodCheck_drain (T := T) s.waitingProducers h3
      have hBskip := fifoCheck_skips (T := T) regCevt serveCevt
        (s.waitingProducers.map (fun p => QEvent.wokeP p.op p.seq))
        (by intro e he; obtain ⟨x, hx, rfl⟩ := List.mem_map.1 he; exact ⟨rfl, rfl⟩)
      refine ⟨⟨by simp [consSeqs], by simp [consSeqs], by simp [prodSeqs], by simp [prodSeqs]⟩,
        ?_, ?_, ?_, ?_⟩
      · show fifoCheck regCevt serveCevt
          (s.waitingConsumers.map (fun c => QEvent.resolvedC c.1 c.2 none)
            ++ s.waitingProducers.map (fun p => QEvent.wokeP p.op p.seq)) (consSeqs s) = true
        rw [fifoCheck_append, Bool.and_eq_true]
        refine ⟨hA.1, ?_⟩
        have hp0 : fifoPend regCevt serveCevt
            (s.waitingConsumers.map (fun c => QEvent.resolvedC c.1 c.2 none))
            (consSeqs s) = [] := hA.2
        rw [hp0]
        exact (hBskip []).1
      · show fifoPend regCevt serveCevt
          (s.waitingConsumers.map (fun c => QEvent.resolvedC c.1 c.2 none)
            ++ s.waitingProducers.map (fun p => QEvent.wokeP p.op p.seq)) (consSeqs s) =
          consSeqs { s with closed := true, waitingConsumers := [], waitingProducers := [],
                            woken := s.woken ++ s.waitingProducers }
        have happ : ∀ (a b : List (QEvent T)) (pend : List Nat),
            fifoPend regCevt serveCevt (a ++ b) pend =
              fifoPend regCevt serveCevt b (fifoPend regCevt serveCevt a pend) := by
          intro a
          induction a with
          | nil => intro b pend; rfl
          | cons e r ih =>
            intro b pend
            rw [List.cons_append]
            cases hr : regCevt e with
            | some q => simp only [fifoPend, hr]; exact ih b (pend ++ [q])
            | none =>
              cases hs : serveCevt e with
              | some q => simp only [fifoPend, hr, hs]; exact ih b (pend.erase q)
              | none => simp only [fifoPend, hr, hs]; exact ih b pend
        rw [happ]
        have hp0 : fifoPend regCevt serveCevt
            (s.waitingConsumers.map (fun c => QEvent.resolvedC c.1 c.2 none))
            (consSeqs s) = [] := hA.2
        rw [hp0]
        exact (hBskip []).2
      · show fifoCheck regPevt servePevt
          (s.waitingConsumers.map (fun c => QEvent.resolvedC c.1 c.2 none)
            ++ s.waitingProducers.map (fun p => QEvent.wokeP p.op p.seq)) (prodSeqs s) = true
        rw [fifoCheck_append, Bool.and_eq_true]
        refine ⟨(hAskip (prodSeqs s)).1, ?_⟩
        rw [(hAskip (prodSeqs s)).2]
        exact hBdrain.1
      · show fifoPend regPevt servePevt
          (s.waitingConsumers.map (fun c => QEvent.resolvedC c.1 c.2 none)
            ++ s.waitingProducers.map (fun p => QEvent.wokeP p.op p.seq)) (prodSeqs s) =
          prodSeqs { s with closed := true, waitingConsumers := [], waitingProducers := [],
                            woken := s.woken ++ s.waitingProducers }
        have happ : ∀ (a b : List (QEvent T)) (pend : List Nat),
            fifoPend regPevt servePevt (a ++ b) pend =
              fifoPend regPevt servePevt b (fifoPend regPevt servePevt a pend) := by
          intro a
          induction a with
          | nil => intro b pend; rfl
          | cons e r ih =>
            intro b pend
            rw [List.cons_append]
            cases hr : regPevt e with
            | some q => simp only [fifoPend, hr]; exact ih b (pend ++ [q])
            | none =>
              cases hs : servePevt e with
              | some q => simp only [fifoPend, hr, hs]; exact ih b (pend.erase q)
              | none => simp only [fifoPend, hr, hs]; exact ih b pend
        rw [happ]
        rw [(hAskip (prodSeqs s)).2]
        exact hBdrain.2


/-- FIFO service order over a whole run. -/
theorem fifo_run {T : Type} (script : List (QStep T)) :
    ∀ s : BoundedQueue T, SeqSorted s →
    fifoCheck regCevt serveCevt (qRun s script).2 (consSeqs s) = true ∧
    fifoCheck regPevt servePevt (qRun s script).2 (prodSeqs s) = true := by
  induction script with
  | nil => intro s _; exact ⟨rfl, rfl⟩
  | cons st rest ih =>
    intro s h
    obtain ⟨hss, hc1, hc2, hp1, hp2⟩ := fifo_step s st h
    obtain ⟨ihc, ihp⟩ := ih (qStep s st).1 hss
    rw [qRun_trace_cons]
    constructor
    · rw [fifoCheck_append, hc1, hc2, ihc]
      rfl
    · rw [fifoCheck_append, hp1, hp2, ihp]
      rfl

/-- C9 counterexample: capacity 1; producers 1 and 2 suspend in that
order; a dequeue wakes producer 1 and frees the slot, but a barging
`tryPush` fills it before producer 1 resumes, so producer 1 fails its
retry and re-registers *behind* producer 2; producer 2 then completes
its enqueue while the earlier-registered producer 1 is still pending. -/
theorem c9_counterexample : ¬ c9AsStated := by
  intro h
  have hx := (h 1 [.tryPush 10, .push 1 11, .push 2 12, .next 3, .tryPush 13,
    .resumePush 0, .next 4, .resumePush 0] (by decide)).1
  exact absurd hx (by decide)

/-- C9 (amended): waiting consumers are resolved in strict
first-registered-first-served order, and waiting producers are *woken*
in strict first-registered-first-served order, a re-registration (after
a failed retry) counting as a new registration at the back; the
completion order of producer enqueues may deviate when a woken producer
loses its freed slot to an intervening push. -/
theorem c9_service_order {T : Type} (c : Nat) (script : List (QStep T)) :
    fifoCheck regCevt serveCevt (qRun (initQ T c) script).2 [] = true ∧
    fifoCheck regPevt servePevt (qRun (initQ T c) script).2 [] = true :=
  fifo_run script (initQ T c)
    ⟨List.Pairwise.nil, by simp [consSeqs, initQ], List.Pairwise.nil, by simp [prodSeqs, initQ]⟩


/-! ## Claim C8: merged cancellation -/

theorem mergeScan_live (rest : List MSignal) :
    ∀ (i : Nat) (st : MergeState), (∀ sg ∈ rest, sg.aborted = false) →
    (mergeScan st rest i).inputs = st.inputs ∧
    (mergeScan st rest i).derived = st.derived ∧
    (∀ j, (j ∈ st.listened ∨ (i ≤ j ∧ j < i + rest.length)) →
      j ∈ (mergeScan st rest i).listened) := by
  induction rest with
  | nil =>
    intro i st _
    refine ⟨rfl, rfl, ?_⟩
    intro j hj
    rcases hj with hj | hj
    · exact hj
    · simp only [List.length_nil] at hj
      omega
  | cons sg rs ih =>
    intro i st hlive
    have h0 : sg.aborted = false := hlive sg (List.mem_cons_self _ _)
    rw [show mergeScan st (sg :: rs) i =
        mergeScan { st with listened := st.listened ++ [i], regLog := st.regLog ++ [i] }
          rs (i + 1) by simp [mergeScan, h0]]
    obtain ⟨a, b, c⟩ := ih (i + 1) _ (fun x hx => hlive x (List.mem_cons_of_mem _ hx))
    refine ⟨a, b, ?_⟩
    intro j hj
    apply c
    rcases hj with hj | hj
    · exact Or.inl (by simp [hj])
    · rcases Nat.eq_or_lt_of_le hj.1 with heq | hlt
      · exact Or.inl (by simp [heq])
      · refine Or.inr ⟨hlt, ?_⟩
        have h2 := hj.2
        simp only [List.length_cons] at h2
        omega

theorem mergeScan_found (rest : List MSignal) :
    ∀ (i : Nat) (st : MergeState) (sg : MSignal),
    st.derived.aborted = false →
    rest.find? (fun x => x.aborted) = some sg →
    (mergeScan st rest i).derived = ⟨true, sg.reason⟩ ∧
    (mergeScan st rest i).listened = [] := by
  induction rest with
  | nil => intro i st sg _ hf; exact absurd hf (by simp)
  | cons x rs ih =>
    intro i st sg hd hf
    by_cases hx : x.aborted = true
    · rw [List.find?_cons_of_pos _ (by simp [hx])] at hf
      have hxs : x = sg := by simpa using hf
      subst hxs
      rw [show mergeScan st (x :: rs) i =
          { st with derived := ctlAbort st.derived x.reason, listened := [] } by
        simp [mergeScan, hx]]
      constructor
      · show ctlAbort st.derived x.reason = _
        simp [ctlAbort, hd]
      · rfl
    · have hx2 : x.aborted = false := by simpa using hx
      rw [List.find?_cons_of_neg _ (by simp [hx2])] at hf
      rw [show mergeScan st (x :: rs) i =
          mergeScan { st with listened := st.listened ++ [i], regLog := st.regLog ++ [i] }
            rs (i + 1) by simp [mergeScan, hx2]]
      exact ih (i + 1) _ sg hd hf

theorem fire_unlistened (st : MergeState) (i : Nat) (r : String)
    (h : st.listened = []) :
    (fire st i r).derived = st.derived ∧ (fire st i r).listened = [] := by
  unfold fire
  cases hg : st.inputs[i]? with
  | none => exact ⟨rfl, h⟩
  | some sg =>
    by_cases ha : sg.aborted = true
    · simp [ha, h]
    · have ha2 : sg.aborted = false := by simpa using ha
      simp [ha2, h]

theorem fireAll_unlistened (fires : List (Nat × String)) :
    ∀ st : MergeState, st.listened = [] →
    (fireAll st fires).derived = st.derived ∧ (fireAll st fires).listened = [] := by
  induction fires with
  | nil => intro st h; exact ⟨rfl, h⟩
  | cons f rest ih =>
    intro st h
    obtain ⟨i, r⟩ := f
    obtain ⟨hd, hl⟩ := fire_unlistened st i r h
    obtain ⟨hd2, hl2⟩ := ih (fire st i r) hl
    exact ⟨hd2.trans hd, hl2⟩

theorem find_aborted_set (l : List MSignal) :
    ∀ (i : Nat) (r : String), (∀ sg ∈ l, sg.aborted = false) → i < l.length →
    (l.set i ⟨true, r⟩).find? (fun x => x.aborted) = some ⟨true, r⟩ := by
  induction l with
  | nil => intro i r _ hi; simp at hi
  | cons x rs ih =>
    intro i r hlive hi
    cases i with
    | zero => simp [List.set]
    | succ n =>
      have hx : x.aborted = false := hlive x (List.mem_cons_self _ _)
      rw [List.set_cons_succ]
      rw [List.find?_cons_of_neg _ (by simp [hx])]
      exact ih n r (fun y hy => hlive y (List.mem_cons_of_mem _ hy)) (by simpa using hi)

/-- C8 counterexample: merging a live signal followed by an
already-fired one *does* register (and then remove) a listener on the
live signal — the registration log is non-empty, so "all listener
registration is skipped" fails. -/
theorem c8_counterexample : ¬ c8AsStated := by
  intro h
  have hx := (h.2 [⟨false, ""⟩, ⟨true, "X"⟩] ⟨⟨true, "X"⟩, by decide⟩).2
  exact absurd hx (by decide)

/-- C8 (amended): the derived signal fires with the reason of the first
input to fire, and later fires of other inputs are ignored; if some
input is already fired at merge time, the derived signal fires
synchronously with the reason of the *first* such input in iteration
order, and no listener remains attached when merge returns (listeners
added to earlier, live inputs are removed before returning, though
their registration does happen). -/
theorem c8_merge_first_wins :
    (∀ (sigs : List MSignal) (i : Nat) (r : String) (fires : List (Nat × String)),
      (∀ sg ∈ sigs, sg.aborted = false) → i < sigs.length →
      (fireAll (fire (mergeAbortSignals sigs) i r) fires).derived = ⟨true, r⟩) ∧
    (∀ (sigs : List MSignal) (sg : MSignal),
      sigs.find? (fun x => x.aborted) = some sg →
      (mergeAbortSignals sigs).derived = ⟨true, sg.reason⟩ ∧
      (mergeAbortSignals sigs).listened = []) := by
  constructor
  · intro sigs i r fires hlive hi
    obtain ⟨hin, hder, hlis⟩ :=
      mergeScan_live sigs 0 ⟨sigs, [], ⟨false, ""⟩, []⟩ hlive
    have hmem : i ∈ (mergeAbortSignals sigs).listened :=
      hlis i (Or.inr ⟨Nat.zero_le i, by simpa using hi⟩)
    have hg : (mergeAbortSignals sigs).inputs[i]? = some sigs[i] := by
      rw [show (mergeAbortSignals sigs).inputs = sigs from hin]
      exact List.getElem?_eq_getElem hi
    have hab : sigs[i].aborted = false := hlive sigs[i] (List.getElem_mem hi)
    have hfire : fire (mergeAbortSignals sigs) i r =
        onAbort { mergeAbortSignals sigs with
                  inputs := (mergeAbortSignals sigs).inputs.set i ⟨true, r⟩ } := by
      simp only [fire, hg, hab]
      simp [hmem]
    have hfind : ({ mergeAbortSignals sigs with
        inputs := (mergeAbortSignals sigs).inputs.set i ⟨true, r⟩ } :
          MergeState).inputs.find? (fun x => x.aborted) = some ⟨true, r⟩ := by
      show ((mergeAbortSignals sigs).inputs.set i ⟨true, r⟩).find? (fun x => x.aborted) =
        some ⟨true, r⟩
      rw [show (mergeAbortSignals sigs).inputs = sigs from hin]
      exact find_aborted_set sigs i r hlive hi
    have honab : (fire (mergeAbortSignals sigs) i r).derived = ⟨true, r⟩ ∧
        (fire (mergeAbortSignals sigs) i r).listened = [] := by
      rw [hfire]
      unfold onAbort
      rw [hfind]
      constructor
      · show ctlAbort (mergeAbortSignals sigs).derived r = _
        rw [show (mergeAbortSignals sigs).derived = ⟨false, ""⟩ from hder]
        simp [ctlAbort]
      · rfl
    obtain ⟨hd2, _⟩ := fireAll_unlistened fires (fire (mergeAbortSignals sigs) i r) honab.2
    exact hd2.trans honab.1
  · intro sigs sg hf
    exact mergeScan_found sigs 0 ⟨sigs, [], ⟨false, ""⟩, []⟩ sg rfl hf

/-- Witness for C8 (amended): two live inputs; input 0 fires with "X",
then input 1 fires with "Y"; the merged signal carries "X". -/
theorem c8_witness :
    (fireAll (fire (mergeAbortSignals [⟨false, "a"⟩, ⟨false, "b"⟩]) 0 "X")
      [(1, "Y")]).derived = ⟨true, "X"⟩ :=
  c8_merge_first_wins.1 [⟨false, "a"⟩, ⟨false, "b"⟩] 0 "X" [(1, "Y")]
    (by decide) (by decide)

end Daemonizer
